import Mathlib

/-!
# Verification of `cmd_bump_detection.py` (conan-extensions, `cci:bump-detection`)

Shallow embedding of `src/extensions/commands/cci/cmd_bump_detection.py`.

Modelling conventions:

* YAML trees (`yaml.safe_load` results) are modelled by `Yaml`.  Mappings are
  association lists in insertion order, mirroring Python dicts (whose keys are
  unique; that invariant, automatic in Python, is the predicate `WFY`).
* Python `==`/`!=` on YAML data is modelled by `pyEq`.  In Python `bool` is a
  subclass of `int`, so `1 == True` holds; `pyEq` reproduces this.
* Recursive functions over the nested `Yaml` type are written with an explicit
  structural fuel (`pyEqF`, `WFYF`, `diffMapF`) so that they compute by kernel
  reduction; the exported entry points instantiate the fuel with the tree
  depth `ydepth`, which strictly bounds the recursion, so the fuel never runs
  out (the `0` fallbacks are unreachable from the entry points).
* `recursive_yaml_diff` iterates `set(yaml_old) | set(yaml_new)`, whose
  iteration order is unspecified (CPython string hashing is randomized per
  process).  The embedding therefore takes an order oracle `σ : KeyOrder`,
  applied to the canonical first-seen union of the keys; a realizable oracle
  is any permutation (`SetOrder`).
* External collaborators (git, the YAML parser, `os.path.isdir`) are fields of
  a `World`; fallible calls return `Except String _`, mirroring the
  `ConanException` raised by the Python wrappers.  `yaml.safe_load` is an
  external library, so it is a field of the world rather than re-implemented.
* The process working directory is assumed to sit at the repository root, so
  `git diff --name-only` with and without `--relative` agree; `os.path`
  functions are modelled as the corresponding pure string functions on
  normalized paths (absolute `cwd`, relative changed-file paths), the only
  shapes the command encounters.  Python string operations are modelled on
  the character lists underlying `String`.
* Python `len(...)` / `... in ...` raise `TypeError` on non-sized values;
  those crash shapes are outside the modelled domain (`ylen`, `yIn` return
  the value that makes the surrounding gate reject).
-/

set_option maxHeartbeats 1000000

/-- A parsed YAML tree, as produced by `yaml.safe_load`.  Mappings are
association lists in insertion order. -/
inductive Yaml where
  | null
  | bool (b : Bool)
  | int (n : Int)
  | str (s : String)
  | list (xs : List Yaml)
  | map (m : List (String × Yaml))

abbrev YMap := List (String × Yaml)

mutual

/-- Depth of a YAML tree; a structural bound used as fuel. -/
def ydepth : Yaml → Nat
  | .list xs => 1 + ydepthL xs
  | .map m => 1 + ydepthM m
  | _ => 1

def ydepthL : List Yaml → Nat
  | [] => 0
  | y :: ys => max (ydepth y) (ydepthL ys)

def ydepthM : List (String × Yaml) → Nat
  | [] => 0
  | (_, v) :: r => max (ydepth v) (ydepthM r)

end

/-- Python `d[k]` on a dict modelled as an association list. -/
def lookupYM (k : String) : YMap → Option Yaml
  | [] => none
  | (k2, v) :: rest => if k2 == k then some v else lookupYM k rest

/-- The underlying association list of a mapping node (else empty). -/
def asMap : Yaml → YMap
  | .map m => m
  | _ => []

/-- Python `y[k]` with a default for the unreachable missing case. -/
def getY (y : Yaml) (k : String) : Yaml := (lookupYM k (asMap y)).getD .null

/-- Python `d[k]` on an association list with a default for the unreachable
missing case. -/
def getYM (m : YMap) (k : String) : Yaml := (lookupYM k m).getD .null

/-- Python `list(y.keys())` for a mapping node. -/
def keysOfY : Yaml → List String
  | .map m => m.map (·.1)
  | _ => []

/-- Python `list(y.values())` for a mapping node. -/
def valuesOfY : Yaml → List Yaml
  | .map m => m.map (·.2)
  | _ => []

/-- Python `isinstance(y, dict)`. -/
def isMapY : Yaml → Bool
  | .map _ => true
  | _ => false

/-- Python `isinstance(y, str)`. -/
def isStrY : Yaml → Bool
  | .str _ => true
  | _ => false

/-- Python `isinstance(y, list)`. -/
def isListY : Yaml → Bool
  | .list _ => true
  | _ => false

/-- The string held by a string node (unreachable default otherwise). -/
def strOfY : Yaml → String
  | .str s => s
  | _ => ""

/-- The string elements of a list node. -/
def strListOfY : Yaml → List String
  | .list l => l.filterMap (fun y => match y with | .str s => some s | _ => none)
  | _ => []

/-- Checks whether the character list `sub` occurs inside `l` (Python
substring containment). -/
def containsSub (sub : List Char) : List Char → Bool
  | [] => sub.isEmpty
  | x :: xs => List.isPrefixOf sub (x :: xs) || containsSub sub xs

/-- Python `len(y)`: number of keys of a dict, number of elements of a list,
number of characters of a string. -/
def ylen : Yaml → Nat
  | .map m => m.length
  | .list l => l.length
  | .str s => s.length
  | _ => 0

/-- Python `k in y`: key membership for dicts, substring test for strings,
element membership for lists (a string only ever equals a string). -/
def yIn (k : String) : Yaml → Bool
  | .map m => (lookupYM k m).isSome
  | .str s => containsSub k.data s.data
  | .list l => l.any (fun y => match y with | .str s => s == k | _ => false)
  | _ => false

/-- One layer of Python list equality, comparing elements with `recur`. -/
def pyEqListStep (recur : Yaml → Yaml → Bool) : List Yaml → List Yaml → Bool
  | [], [] => true
  | a :: xs, b :: ys => recur a b && pyEqListStep recur xs ys
  | _, _ => false

/-- One layer of Python dict equality: every entry of the first dict is
present, with a `recur`-equal value, in the second dict. -/
def pyEqEntriesStep (recur : Yaml → Yaml → Bool) : YMap → YMap → Bool
  | [], _ => true
  | (k, v) :: rest, b =>
    (match lookupYM k b with
     | some w => recur v w
     | none => false) && pyEqEntriesStep recur rest b

/-- Fueled Python structural equality on YAML data.  `bool` is a subclass of
`int` in Python, so `True == 1` and `False == 0`; dict equality is size plus
per-key value equality, order-insensitive. -/
def pyEqF : Nat → Yaml → Yaml → Bool
  | 0, _, _ => false
  | fuel + 1, a, b =>
    match a, b with
    | .null, .null => true
    | .bool x, .bool y => x == y
    | .bool x, .int n => (if x then (1 : Int) else 0) == n
    | .int n, .bool y => n == (if y then (1 : Int) else 0)
    | .int x, .int y => x == y
    | .str x, .str y => x == y
    | .list xs, .list ys => pyEqListStep (pyEqF fuel) xs ys
    | .map ma, .map mb => ma.length == mb.length && pyEqEntriesStep (pyEqF fuel) ma mb
    | _, _ => false

/-- Python `==` on YAML data (fuel instantiated with the tree depths, which
strictly bound the recursion). -/
def pyEq (a b : Yaml) : Bool := pyEqF (ydepth a + ydepth b) a b

/-- Pairwise distinctness of a key list. -/
def nodupStr : List String → Bool
  | [] => true
  | x :: xs => !xs.contains x && nodupStr xs

/-- Fueled well-formedness: every mapping in the tree has pairwise-distinct
keys, as is automatic for Python dicts. -/
def WFYF : Nat → Yaml → Bool
  | 0, _ => false
  | fuel + 1, y =>
    match y with
    | .list xs => xs.all (WFYF fuel)
    | .map m => nodupStr (m.map (·.1)) && (m.map (·.2)).all (WFYF fuel)
    | _ => true

/-- Well-formedness of a parsed YAML value (unique keys in every mapping). -/
def WFY (y : Yaml) : Bool := WFYF (ydepth y) y

/-! ## The tree differencer (`recursive_yaml_diff`) -/

/-- First-seen deduplicating accumulator. -/
def addUnique (acc : List String) (k : String) : List String :=
  if acc.contains k then acc else acc ++ [k]

/-- The set `set(yaml_old) | set(yaml_new)` of keys, listed canonically in
first-seen order (old keys first). -/
def unionKeys (yaml_old yaml_new : YMap) : List String :=
  ((yaml_old.map (·.1)) ++ (yaml_new.map (·.1))).foldl addUnique []

/-- An iteration-order oracle for Python sets of strings. -/
abbrev KeyOrder := List String → List String

/-- A realizable set-iteration order: some enumeration of the same keys. -/
def SetOrder (σ : KeyOrder) : Prop := ∀ l : List String, (σ l).Perm l

/-- The body of the `for key in keys` loop of `recursive_yaml_diff`: one diff
entry per differing key, in the order given by `keys`; the recursive call on
nested dicts is abstracted as `recur`.  Mirrors lines 193–207 of the source:
key only in new → `added`, key only in old → `removed`, unequal values both
dicts → nested diff, otherwise → `modified`. -/
def diffKeysStep (recur : YMap → YMap → YMap) : List String → YMap → YMap → YMap
  | [], _, _ => []
  | key :: rest, yaml_old, yaml_new =>
    let tail := diffKeysStep recur rest yaml_old yaml_new
    match lookupYM key yaml_old, lookupYM key yaml_new with
    | none, some v => (key, .map [("added", v)]) :: tail
    | some v, none => (key, .map [("removed", v)]) :: tail
    | some vo, some vn =>
      if pyEq vo vn then tail
      else if isMapY vo && isMapY vn then (key, .map (recur (asMap vo) (asMap vn))) :: tail
      else (key, .map [("modified", .map [("old", vo), ("new", vn)])]) :: tail
    | none, none => tail

/-- Fueled `recursive_yaml_diff` on two dicts. -/
def diffMapF (σ : KeyOrder) : Nat → YMap → YMap → YMap
  | 0, _, _ => []
  | fuel + 1, yaml_old, yaml_new =>
    diffKeysStep (diffMapF σ fuel) (σ (unionKeys yaml_old yaml_new)) yaml_old yaml_new

/-- `recursive_yaml_diff(yaml_old, yaml_new)`: the recursive structural diff
of two parsed YAML files (the source always passes dicts; the map depth
strictly bounds the nesting, so the fuel never runs out). -/
def recursive_yaml_diff (σ : KeyOrder) (yaml_old yaml_new : Yaml) : YMap :=
  match yaml_old, yaml_new with
  | .map a, .map b => diffMapF σ (ydepthM a + ydepthM b) a b
  | _, _ => []

/-! ## String, path and URL helpers (`os.path`, `urllib.parse`, `re`, `sorted`) -/

/-- Python `s.split(sep)` for a single-character separator, on char lists. -/
def splitCh (c : Char) : List Char → List (List Char)
  | [] => [[]]
  | x :: xs =>
    if x == c then [] :: splitCh c xs
    else
      match splitCh c xs with
      | [] => [[x]]
      | g :: gs => (x :: g) :: gs

/-- Splits a char list at the first occurrence of `sep`, if any. -/
def findSub (sep : List Char) : List Char → Option (List Char × List Char)
  | [] => if sep.isEmpty then some ([], []) else none
  | x :: xs =>
    if List.isPrefixOf sep (x :: xs) then some ([], (x :: xs).drop sep.length)
    else (findSub sep xs).map (fun pq => (x :: pq.1, pq.2))

/-- ASCII lower-casing, as applied by `urllib.parse` to schemes/hostnames. -/
def lowerChar (c : Char) : Char :=
  if 'A' ≤ c ∧ c ≤ 'Z' then Char.ofNat (c.toNat + 32) else c

/-- Code-point lexicographic `<=` on strings (Python string comparison). -/
def lexLe : List Char → List Char → Bool
  | [], _ => true
  | _ :: _, [] => false
  | a :: xs, b :: ys => if a == b then lexLe xs ys else decide (a < b)

/-- Insertion into a `lexLe`-sorted list. -/
def insertStr (s : String) : List String → List String
  | [] => [s]
  | x :: xs => if lexLe s.data x.data then s :: x :: xs else x :: insertStr s xs

/-- Python `sorted` on a list of strings. -/
def sortStrings : List String → List String
  | [] => []
  | x :: xs => insertStr x (sortStrings xs)

/-- Character-wise longest common prefix of two strings. -/
def commonPrefixChars : List Char → List Char → List Char
  | c :: cs, d :: ds => if c == d then c :: commonPrefixChars cs ds else []
  | _, _ => []

def commonprefix2 (a b : String) : String := String.mk (commonPrefixChars a.data b.data)

/-- The commonprefix helper of `os.path`: the character-wise (not
path-aware) longest common prefix of a list of strings. -/
def commonprefixStr : List String → String
  | [] => ""
  | x :: xs => xs.foldl commonprefix2 x

/-- `os.path.abspath` for an already-normalized relative path, with the
process working directory `cwd` absolute. -/
def abspathStr (cwd p : String) : String := cwd ++ "/" ++ p

/-- `os.path.relpath(p)` relative to `cwd`, for the normalized shapes the
command encounters (`p` equal to `cwd`, or extending it). -/
def relpathStr (cwd p : String) : String :=
  if p == cwd || p == cwd ++ "/" then "."
  else if List.isPrefixOf (cwd ++ "/").data p.data then String.mk (p.data.drop (cwd.data.length + 1))
  else p

/-- `os.path.basename` (POSIX): the part after the last slash. -/
def basename (p : String) : String :=
  ((splitCh '/' p.data).map String.mk).getLastD ""

/-- A non-empty all-digit character list. -/
def isDigitsL (l : List Char) : Bool := !l.isEmpty && l.all Char.isDigit

/-- The semver gate, matching the anchored pattern `^(\d+)\.(\d+)(?:\.(\d+))?$`:
two or three dot-separated runs of digits. -/
def semver_match (version : String) : Bool :=
  match splitCh '.' version.data with
  | [a, b] => isDigitsL a && isDigitsL b
  | [a, b, c] => isDigitsL a && isDigitsL b && isDigitsL c
  | _ => false

/-- The fields of `urllib.parse.urlparse` the command reads.  `hostname` is
`None` when the URL has no network location. -/
structure UrlParts where
  scheme : String
  hostname : Option String
deriving DecidableEq

/-- `urllib.parse.urlparse`, modelled for absolute URLs of the shape
`scheme://[userinfo@]host[:port]/...` (the only shapes in the data the command reads); scheme and hostname are lower-cased as in Python. -/
def urlparse (url : String) : UrlParts :=
  match findSub "://".data url.data with
  | none => { scheme := "", hostname := none }
  | some (pre, post) =>
    let netloc := post.takeWhile (· != '/')
    let hostport := (splitCh '@' netloc).getLastD netloc
    let host := (hostport.takeWhile (· != ':')).map lowerChar
    { scheme := String.mk (pre.map lowerChar),
      hostname := if host.isEmpty then none else some (String.mk host) }

/-! ## The world of external collaborators -/

/-- The observable behavior of the external collaborators for one run:
the process working directory, the `git diff --name-only` output, the
the `os.path.isdir` view of the filesystem, `git show commit:path` (already stripped), and
`yaml.safe_load`.  Fallible calls model `ConanException` as `Except.error`. -/
structure World where
  cwd : String
  diffRaw : Except String String
  isdir : String → Bool
  gitShow : String → String → Except String String
  parseYaml : String → Except String Yaml

/-- `git_diff_regular`: raw `git diff` output or a `ConanException`.  The
flag set is irrelevant to the model: the run sits at the repository root,
where `--relative` is the identity, and `--name-only` is what `diffRaw`
records. -/
def git_diff_regular (w : World) (_commit_hash_old _commit_hash_new : String) : Except String String :=
  w.diffRaw

/-- `git_diff_filenames`: the non-empty lines of the diff output. -/
def git_diff_filenames (w : World) (commit_hash_old commit_hash_new : String) (_relative : Bool) :
    Except String (List String) :=
  match git_diff_regular w commit_hash_old commit_hash_new with
  | .error e => .error e
  | .ok s => .ok (((splitCh '\n' s.data).map String.mk).filter (fun it => it != ""))

/-- `get_file_content_by_commit`: `git show commit:path`, stripped. -/
def get_file_content_by_commit (w : World) (commit_hash file_path : String) : Except String String :=
  w.gitShow commit_hash file_path

/-- `load_yaml_content`: `yaml.safe_load`, `ConanException` on parse error. -/
def load_yaml_content (w : World) (file_content : String) : Except String Yaml :=
  w.parseYaml file_content

/-- `get_config_yml_versions`: the version keys of `config.yml` at a commit. -/
def get_config_yml_versions (w : World) (commit_hash yaml_path : String) : Except String (List String) :=
  match get_file_content_by_commit w commit_hash yaml_path with
  | .error e => .error e
  | .ok yml_content =>
    match load_yaml_content w yml_content with
    | .error e => .error e
    | .ok config_yml =>
      .ok (if yIn "versions" config_yml && isMapY (getY config_yml "versions")
           then keysOfY (getY config_yml "versions") else [])

/-- `get_conandata_yml_versions`: the version keys of `conandata.yml` at a
commit. -/
def get_conandata_yml_versions (w : World) (commit_hash yaml_path : String) : Except String (List String) :=
  match get_file_content_by_commit w commit_hash yaml_path with
  | .error e => .error e
  | .ok yml_content =>
    match load_yaml_content w yml_content with
    | .error e => .error e
    | .ok conandata_yml =>
      .ok (if yIn "sources" conandata_yml && isMapY (getY conandata_yml "sources")
           then keysOfY (getY conandata_yml "sources") else [])

/-- The URLs one `sources` entry contributes: a scalar `url` gives one URL, a
list `url` gives each element. -/
def urlsOfSource (version_it : Yaml) : List UrlParts :=
  if yIn "url" version_it && isStrY (getY version_it "url") then
    [urlparse (strOfY (getY version_it "url"))]
  else if yIn "url" version_it && isListY (getY version_it "url") then
    (strListOfY (getY version_it "url")).map urlparse
  else []

/-- `get_conandata_yml_urls`: all parsed URLs of `conandata.yml` at a
commit. -/
def get_conandata_yml_urls (w : World) (commit_hash yaml_path : String) : Except String (List UrlParts) :=
  match get_file_content_by_commit w commit_hash yaml_path with
  | .error e => .error e
  | .ok yml_content =>
    match load_yaml_content w yml_content with
    | .error e => .error e
    | .ok conandata_yml =>
      .ok (if yIn "sources" conandata_yml && isMapY (getY conandata_yml "sources")
           then (((asMap (getY conandata_yml "sources")).map (·.2)).map urlsOfSource).flatten
           else [])

/-- `compare_yaml_files`: fetch both revisions of a file, parse both, diff. -/
def compare_yaml_files (w : World) (σ : KeyOrder) (commit_hash_old commit_hash_new yaml_path : String) :
    Except String YMap :=
  match get_file_content_by_commit w commit_hash_old yaml_path with
  | .error e => .error e
  | .ok yml_content_old =>
    match get_file_content_by_commit w commit_hash_new yaml_path with
    | .error e => .error e
    | .ok yml_content_new =>
      match load_yaml_content w yml_content_old with
      | .error e => .error e
      | .ok yaml_old =>
        match load_yaml_content w yml_content_new with
        | .error e => .error e
        | .ok yaml_new => .ok (recursive_yaml_diff σ yaml_old yaml_new)

/-! ## The bump classifier (`detect_bump_version`) -/

/-- Python `d.keys() == {v}`: set equality of a key list with a singleton. -/
def keySetEqSingle (ks : List String) (v : String) : Bool :=
  !ks.isEmpty && ks.all (· == v)

/-- Gate 3 on one `versions` diff entry (source line 268, negated): a pure
`added` of exactly one field named `folder`. -/
def pure_folder_add (version_info : Yaml) : Bool :=
  yIn "added" version_info && ylen (getY version_info "added") == 1 &&
  (keysOfY version_info).length == 1 && yIn "folder" (getY version_info "added")

/-- The warning emitted for a non-semver added version key. -/
def warnNonSemver (version : String) : String :=
  "Found non-semver format added to config.yml: " ++ version ++ ". Skipping ..."

/-- Normalizes the `url` value of an added entry to the list Python would
iterate: a scalar is wrapped, a list contributes its string elements. -/
def normalizeUrl : Yaml → List String
  | .str s => [s]
  | .list l => l.filterMap (fun y => match y with | .str s => some s | _ => none)
  | .map m => m.map (·.1)
  | _ => []

/-- The loop of `detect_bump_version` over the values of the `sources` diff
(source lines 293–314): `Ok false` models the
`return []` of a failing gate, an error propagates from
`get_conandata_yml_urls` (which the source re-invokes inside the loop). -/
def check_sources_entries (w : World) (commit_hash_old conandata_path : String) :
    List Yaml → Except String Bool
  | [] => .ok true
  | version_info :: rest =>
    if !(keySetEqSingle (keysOfY version_info) "added") then .ok false
    else if !((keysOfY (getY version_info "added")).length == 2
              && ["url", "sha256"].all (fun k2 => (keysOfY (getY version_info "added")).contains k2)) then
      .ok false
    else if !(isStrY (getY (getY version_info "added") "sha256")) then .ok false
    else
      match get_conandata_yml_urls w commit_hash_old conandata_path with
      | .error e => .error e
      | .ok old_url_hostnames =>
        let add_urls := normalizeUrl (getY (getY version_info "added") "url")
        if !(add_urls.all (fun url => (old_url_hostnames.map (·.hostname)).contains (urlparse url).hostname)) then
          .ok false
        else if !(add_urls.all (fun url => (old_url_hostnames.map (·.scheme)).contains (urlparse url).scheme)) then
          .ok false
        else check_sources_entries w commit_hash_old conandata_path rest

/-- `detect_bump_version(commit_hash_old, commit_hash_new, output)`.  The
result pairs the returned list with the warnings written to `output`; an
`Except.error` models an uncaught `ConanException` from a collaborator. -/
def detect_bump_version (w : World) (σ : KeyOrder) (commit_hash_old commit_hash_new : String) :
    Except String (List String × List String) :=
  match git_diff_filenames w commit_hash_old commit_hash_new true with
  | .error e => .error e
  | .ok files =>
    if files.length != 2 then .ok ([], [])
    else
      let common_prefix := relpathStr w.cwd (commonprefixStr (files.map (abspathStr w.cwd)))
      if !(w.isdir common_prefix) then .ok ([], [])
      else
        match git_diff_filenames w commit_hash_old commit_hash_new false with
        | .error e => .error e
        | .ok files2 =>
          let config_list := files2.filter (fun it => basename it == "config.yml")
          if config_list.length != 1 then .ok ([], [])
          else
            let conandata_list := files2.filter (fun it => basename it == "conandata.yml")
            if conandata_list.length != 1 then .ok ([], [])
            else
              match compare_yaml_files w σ commit_hash_old commit_hash_new (config_list.headD "") with
              | .error e => .error e
              | .ok config_compare_result =>
                if !(keySetEqSingle (config_compare_result.map (·.1)) "versions") then .ok ([], [])
                else if !((valuesOfY (getYM config_compare_result "versions")).all pure_folder_add) then
                  .ok ([], [])
                else
                  let added_versions := keysOfY (getYM config_compare_result "versions")
                  match added_versions.find? (fun version => !(semver_match version)) with
                  | some version => .ok ([], [warnNonSemver version])
                  | none =>
                    match get_config_yml_versions w commit_hash_new (config_list.headD "") with
                    | .error e => .error e
                    | .ok config_yml_versions =>
                      match get_conandata_yml_versions w commit_hash_new (conandata_list.headD "") with
                      | .error e => .error e
                      | .ok conandata_yaml_versions =>
                        if sortStrings config_yml_versions != sortStrings conandata_yaml_versions then
                          .ok ([], [])
                        else
                          match compare_yaml_files w σ commit_hash_old commit_hash_new (conandata_list.headD "") with
                          | .error e => .error e
                          | .ok conandata_compare_result =>
                            if !(keySetEqSingle (conandata_compare_result.map (·.1)) "sources") then
                              .ok ([], [])
                            else
                              match check_sources_entries w commit_hash_old (conandata_list.headD "")
                                      (valuesOfY (getYM conandata_compare_result "sources")) with
                              | .error e => .error e
                              | .ok check_ok =>
                                if check_ok then .ok (added_versions, []) else .ok ([], [])

/-! ## Concrete worlds used by the claim instances

All concrete runs use commits `"o"` (old) and `"n"` (new), the repository
root `"/r"` as working directory, and the test-suite layout: `config.yml`
at the recipe root, `all/conandata.yml` in the recipe folder. -/

/-- Builds a world in which exactly `cfgPath` and `cdPath` changed, with the
four file snapshots parsing to the given trees. -/
def mkWorld (cfgPath cdPath : String) (dirOk : String → Bool) (cfg0 cfg1 cd0 cd1 : Yaml) : World :=
  { cwd := "/r"
    diffRaw := .ok (cfgPath ++ "\n" ++ cdPath)
    isdir := dirOk
    gitShow := fun c p =>
      if c == "o" && p == cfgPath then .ok "c0"
      else if c == "n" && p == cfgPath then .ok "c1"
      else if c == "o" && p == cdPath then .ok "d0"
      else if c == "n" && p == cdPath then .ok "d1"
      else .error "git show: no such file"
    parseYaml := fun s =>
      if s == "c0" then .ok cfg0
      else if s == "c1" then .ok cfg1
      else if s == "d0" then .ok cd0
      else if s == "d1" then .ok cd1
      else .error "yaml parse error" }

/-- A `config.yml` version entry `{folder: "all"}`. -/
def vEntry : Yaml := .map [("folder", .str "all")]

/-- A `config.yml` tree listing the given versions. -/
def cfgWith (vs : List String) : Yaml := .map [("versions", .map (vs.map (fun v => (v, vEntry))))]

/-- A `conandata.yml` sources entry `{sha256: ..., url: ...}`. -/
def srcEntry (sha url : String) : Yaml := .map [("sha256", .str sha), ("url", .str url)]

/-- The base world: a legitimate bump of `0.1.1` (the scenario of the test
fixtures shipped with the repository). -/
def Wbase : World :=
  mkWorld "config.yml" "all/conandata.yml" (fun p => p == "." || p == "all")
    (cfgWith ["0.1.0"])
    (cfgWith ["0.1.0", "0.1.1"])
    (.map [("sources", .map [("0.1.0", srcEntry "s0" "http://foo.com/a0")])])
    (.map [("sources", .map [("0.1.0", srcEntry "s0" "http://foo.com/a0"),
                             ("0.1.1", srcEntry "s1" "http://foo.com/a1")])])

/-- A well-formed top-level `patches` mapping carrying a patch for version
`0.1.1`. -/
def patchesNode : Yaml :=
  .map [("0.1.1", .list [.map [("patch_file", .str "patches/p.patch"), ("patch_type", .str "conan")]])]

/-- Like `Wbase`, but with the identical `patches` mapping present in both
snapshots of `conandata.yml`. -/
def WpatchesKept : World :=
  mkWorld "config.yml" "all/conandata.yml" (fun p => p == "." || p == "all")
    (cfgWith ["0.1.0"])
    (cfgWith ["0.1.0", "0.1.1"])
    (.map [("sources", .map [("0.1.0", srcEntry "s0" "http://foo.com/a0")]),
           ("patches", patchesNode)])
    (.map [("sources", .map [("0.1.0", srcEntry "s0" "http://foo.com/a0"),
                             ("0.1.1", srcEntry "s1" "http://foo.com/a1")]),
           ("patches", patchesNode)])

/-- Like `Wbase`, but the new `conandata.yml` additionally gains the
well-formed top-level `patches` entry for the new version. -/
def WpatchesAdded : World :=
  mkWorld "config.yml" "all/conandata.yml" (fun p => p == "." || p == "all")
    (cfgWith ["0.1.0"])
    (cfgWith ["0.1.0", "0.1.1"])
    (.map [("sources", .map [("0.1.0", srcEntry "s0" "http://foo.com/a0")])])
    (.map [("sources", .map [("0.1.0", srcEntry "s0" "http://foo.com/a0"),
                             ("0.1.1", srcEntry "s1" "http://foo.com/a1")]),
           ("patches", patchesNode)])

/-- A legitimate bump adding the two versions `0.1.1` and `0.2.0`. -/
def Wtwo : World :=
  mkWorld "config.yml" "all/conandata.yml" (fun p => p == "." || p == "all")
    (cfgWith ["0.1.0"])
    (cfgWith ["0.1.0", "0.1.1", "0.2.0"])
    (.map [("sources", .map [("0.1.0", srcEntry "s0" "http://foo.com/a0")])])
    (.map [("sources", .map [("0.1.0", srcEntry "s0" "http://foo.com/a0"),
                             ("0.1.1", srcEntry "s1" "http://foo.com/a1"),
                             ("0.2.0", srcEntry "s2" "http://foo.com/a2")])])

/-- Old sources carry host `a.com` only over `http` and host `b.com` only
over `https`; the URL of the new version combines host `a.com` with `https`. -/
def Wcross : World :=
  mkWorld "config.yml" "all/conandata.yml" (fun p => p == "." || p == "all")
    (cfgWith ["0.0.9", "0.1.0"])
    (cfgWith ["0.0.9", "0.1.0", "0.1.1"])
    (.map [("sources", .map [("0.0.9", srcEntry "s9" "https://b.com/a9"),
                             ("0.1.0", srcEntry "s0" "http://a.com/a0")])])
    (.map [("sources", .map [("0.0.9", srcEntry "s9" "https://b.com/a9"),
                             ("0.1.0", srcEntry "s0" "http://a.com/a0"),
                             ("0.1.1", srcEntry "s1" "https://a.com/a1")])])

/-- The two changed files live in the unrelated directories `recipes/foo`
and `recipes/foobar`, which merely share the string prefix `recipes/foo`;
that prefix is an existing directory. -/
def Wprefix : World :=
  mkWorld "recipes/foo/config.yml" "recipes/foobar/conandata.yml" (fun p => p == "recipes/foo")
    (cfgWith ["0.1.0"])
    (cfgWith ["0.1.0", "0.1.1"])
    (.map [("sources", .map [("0.1.0", srcEntry "s0" "http://foo.com/a0")])])
    (.map [("sources", .map [("0.1.0", srcEntry "s0" "http://foo.com/a0"),
                             ("0.1.1", srcEntry "s1" "http://foo.com/a1")])])

/-- A bump of `0.1.1` that additionally changes the checksum of the existing
version `0.1.0` in `conandata.yml`. -/
def Wchecksum : World :=
  mkWorld "config.yml" "all/conandata.yml" (fun p => p == "." || p == "all")
    (cfgWith ["0.1.0"])
    (cfgWith ["0.1.0", "0.1.1"])
    (.map [("sources", .map [("0.1.0", srcEntry "s0" "http://foo.com/a0")])])
    (.map [("sources", .map [("0.1.0", srcEntry "sX" "http://foo.com/a0"),
                             ("0.1.1", srcEntry "s1" "http://foo.com/a1")])])

/-- A run whose only change adds the non-semver version key `0.1.1-rc`. -/
def Wbadver : World :=
  mkWorld "config.yml" "all/conandata.yml" (fun p => p == "." || p == "all")
    (cfgWith ["0.1.0"])
    (cfgWith ["0.1.0", "0.1.1-rc"])
    (.map [("sources", .map [("0.1.0", srcEntry "s0" "http://foo.com/a0")])])
    (.map [("sources", .map [("0.1.0", srcEntry "s0" "http://foo.com/a0"),
                             ("0.1.1-rc", srcEntry "s1" "http://foo.com/a1")])])

/-- A run where the new `config.yml` lists a version (`0.2.0`) that the new
`conandata.yml` does not carry. -/
def Wmismatch : World :=
  mkWorld "config.yml" "all/conandata.yml" (fun p => p == "." || p == "all")
    (cfgWith ["0.1.0"])
    (cfgWith ["0.1.0", "0.1.1", "0.2.0"])
    (.map [("sources", .map [("0.1.0", srcEntry "s0" "http://foo.com/a0")])])
    (.map [("sources", .map [("0.1.0", srcEntry "s0" "http://foo.com/a0"),
                             ("0.1.1", srcEntry "s1" "http://foo.com/a1")])])

/-- An error raised by `detect_bump_version` originates in a collaborator
call: the git diff, a `git show`, or a YAML parse failed with that message. -/
def CollabFail (w : World) (e : String) : Prop :=
  w.diffRaw = .error e ∨ (∃ c p, w.gitShow c p = .error e) ∨ (∃ s, w.parseYaml s = .error e)

/-! ## Definitions used by the claim statements -/

/-- Whether `recursive_yaml_diff` emits an entry for key `k`: the key is on
one side only, or its two values are Python-unequal. -/
def diffEmits (yaml_old yaml_new : YMap) (k : String) : Bool :=
  match lookupYM k yaml_old, lookupYM k yaml_new with
  | none, some _ => true
  | some _, none => true
  | some vo, some vn => !pyEq vo vn
  | none, none => false

/-- The keys the differencer reports for two dicts, in canonical first-seen
order. -/
def changedKeys (yaml_old yaml_new : YMap) : List String :=
  (unionKeys yaml_old yaml_new).filter (fun k => diffEmits yaml_old yaml_new k)

/-- A conforming `sources` diff entry: a pure `added` carrying exactly the
two fields `url` and `sha256`, with a string-valued `sha256`. -/
def conformSource (version_info : Yaml) : Bool :=
  keySetEqSingle (keysOfY version_info) "added" &&
  (keysOfY (getY version_info "added")).length == 2 &&
  (keysOfY (getY version_info "added")).contains "url" &&
  (keysOfY (getY version_info "added")).contains "sha256" &&
  isStrY (getY (getY version_info "added") "sha256")

/-! ## Basic lemmas: lookups, union keys, sorting -/

theorem lookupYM_eq_none {k : String} {m : YMap} :
    lookupYM k m = none ↔ k ∉ m.map (·.1) := by
  induction m with
  | nil => simp [lookupYM]
  | cons kv rest ih =>
    obtain ⟨k2, v⟩ := kv
    simp only [lookupYM, List.map_cons, List.mem_cons]
    by_cases hk : k2 = k
    · subst hk
      simp
    · have : (k2 == k) = false := beq_false_of_ne hk
      rw [this]
      simp only [Bool.false_eq_true, if_false, ih]
      constructor
      · rintro h (h1 | h1)
        · exact hk h1.symm
        · exact h h1
      · intro h h1
        exact h (Or.inr h1)

theorem lookupYM_isSome {k : String} {m : YMap} :
    (lookupYM k m).isSome = true ↔ k ∈ m.map (·.1) := by
  rcases h : lookupYM k m with _ | v
  · simp [lookupYM_eq_none.mp h]
  · simp only [Option.isSome_some, true_iff]
    by_contra hmem
    rw [lookupYM_eq_none.mpr hmem] at h
    cases h

theorem mem_of_lookupYM {k : String} {m : YMap} {v : Yaml} (h : lookupYM k m = some v) :
    (k, v) ∈ m := by
  induction m with
  | nil => simp [lookupYM] at h
  | cons kv rest ih =>
    obtain ⟨k2, w⟩ := kv
    by_cases hk : k2 == k
    · simp only [lookupYM, hk, if_pos] at h
      cases h
      simp [beq_iff_eq.mp hk]
    · simp only [lookupYM, hk, Bool.false_eq_true, if_false] at h
      exact List.mem_cons_of_mem _ (ih h)

theorem lookupYM_of_mem_nodup {k : String} {m : YMap} {v : Yaml}
    (hnd : nodupStr (m.map (·.1)) = true) (h : (k, v) ∈ m) : lookupYM k m = some v := by
  induction m with
  | nil => cases h
  | cons kv rest ih =>
    obtain ⟨k2, w⟩ := kv
    simp only [List.map_cons, nodupStr, Bool.and_eq_true, Bool.not_eq_true'] at hnd
    rcases List.mem_cons.mp h with h1 | h1
    · cases h1
      simp [lookupYM]
    · have hkmem : k ∈ rest.map (·.1) := List.mem_map.mpr ⟨(k, v), h1, rfl⟩
      have hne : (k2 == k) = false := by
        by_contra hcon
        have hkk : k2 = k := beq_iff_eq.mp (by simpa using hcon)
        subst hkk
        rw [← List.elem_iff (a := k2)] at hkmem
        rw [show (List.map (fun x => x.1) rest).elem k2 = (List.map (fun x => x.1) rest).contains k2 from rfl, hnd.1] at hkmem
        cases hkmem
      simp only [lookupYM, hne, Bool.false_eq_true, if_false]
      exact ih hnd.2 h1

theorem mem_foldl_addUnique {k : String} :
    ∀ (l acc : List String), k ∈ l.foldl addUnique acc ↔ k ∈ acc ∨ k ∈ l := by
  intro l
  induction l with
  | nil => simp
  | cons x xs ih =>
    intro acc
    simp only [List.foldl_cons, ih, addUnique]
    by_cases hx : acc.contains x
    · rw [if_pos hx]
      rw [List.elem_iff] at hx
      simp only [List.mem_cons]
      constructor
      · rintro (h | h)
        · exact Or.inl h
        · exact Or.inr (Or.inr h)
      · rintro (h | (h | h))
        · exact Or.inl h
        · exact Or.inl (h ▸ hx)
        · exact Or.inr h
    · rw [if_neg (by simpa using hx)]
      simp only [List.mem_append, List.mem_singleton, List.mem_cons]
      tauto

theorem nodup_foldl_addUnique :
    ∀ (l acc : List String), acc.Nodup → (l.foldl addUnique acc).Nodup := by
  intro l
  induction l with
  | nil => simp
  | cons x xs ih =>
    intro acc hacc
    simp only [List.foldl_cons, addUnique]
    by_cases hx : acc.contains x
    · rw [if_pos hx]; exact ih acc hacc
    · rw [if_neg (by simpa using hx)]
      refine ih _ ?_
      refine List.Nodup.append hacc (List.nodup_singleton x) ?_
      intro a ha hb
      rw [List.mem_singleton] at hb
      subst hb
      rw [List.elem_iff] at hx
      exact hx ha

theorem unionKeys_nodup (a b : YMap) : (unionKeys a b).Nodup :=
  nodup_foldl_addUnique _ _ List.nodup_nil

theorem mem_unionKeys {k : String} {a b : YMap} :
    k ∈ unionKeys a b ↔ k ∈ a.map (·.1) ∨ k ∈ b.map (·.1) := by
  unfold unionKeys
  rw [mem_foldl_addUnique]
  simp

theorem insertStr_perm (s : String) : ∀ l : List String, (insertStr s l).Perm (s :: l) := by
  intro l
  induction l with
  | nil => simp [insertStr]
  | cons x xs ih =>
    simp only [insertStr]
    by_cases h : lexLe s.data x.data
    · rw [if_pos h]
    · rw [if_neg h]
      exact (List.Perm.cons x ih).trans (List.Perm.swap s x xs)

theorem sortStrings_perm : ∀ l : List String, (sortStrings l).Perm l := by
  intro l
  induction l with
  | nil => simp [sortStrings]
  | cons x xs ih =>
    simp only [sortStrings]
    exact (insertStr_perm x (sortStrings xs)).trans (List.Perm.cons x ih)

/-! ## Differencer lemmas -/

theorem diffKeysStep_keys (recur : YMap → YMap → YMap) (ks : List String) (yo yn : YMap) :
    (diffKeysStep recur ks yo yn).map (·.1) = ks.filter (fun k => diffEmits yo yn k) := by
  induction ks with
  | nil => rfl
  | cons key rest ih =>
    simp only [diffKeysStep]
    rcases hyo : lookupYM key yo with _ | vo <;> rcases hyn : lookupYM key yn with _ | vn
    · simp [diffEmits, hyo, hyn, ih]
    · simp [diffEmits, hyo, hyn, ih]
    · simp [diffEmits, hyo, hyn, ih]
    · by_cases hpy : pyEq vo vn
      · simp [diffEmits, hyo, hyn, hpy, ih]
      · by_cases hm : isMapY vo && isMapY vn
        · simp [diffEmits, hyo, hyn, hpy, hm, ih]
        · simp [diffEmits, hyo, hyn, hpy, hm, ih]

theorem diffKeysStep_self (recur : YMap → YMap → YMap) (t : YMap)
    (hpy : ∀ k v, lookupYM k t = some v → pyEq v v = true) :
    ∀ ks : List String, diffKeysStep recur ks t t = [] := by
  intro ks
  induction ks with
  | nil => rfl
  | cons key rest ih =>
    simp only [diffKeysStep]
    rcases hyo : lookupYM key t with _ | v
    · simpa using ih
    · simp only [hyo, hpy key v hyo, if_pos]
      exact ih

theorem diffKeysStep_lookup_none (recur : YMap → YMap → YMap) {yo yn : YMap} {k : String}
    {vo vn : Yaml} (hyo : lookupYM k yo = some vo) (hyn : lookupYM k yn = some vn)
    (hpy : pyEq vo vn = true) :
    ∀ ks : List String, lookupYM k (diffKeysStep recur ks yo yn) = none := by
  intro ks
  induction ks with
  | nil => rfl
  | cons key rest ih =>
    simp only [diffKeysStep]
    by_cases hkey : key = k
    · subst hkey
      simp only [hyo, hyn, hpy, if_pos]
      exact ih
    · have hne : (key == k) = false := beq_false_of_ne hkey
      rcases h1 : lookupYM key yo with _ | wo <;> rcases h2 : lookupYM key yn with _ | wn
      · exact ih
      · simpa [lookupYM, hne] using ih
      · simpa [lookupYM, hne] using ih
      · by_cases hpy2 : pyEq wo wn
        · simpa [hpy2] using ih
        · by_cases hm : isMapY wo && isMapY wn
          · simpa [hpy2, hm, lookupYM, hne] using ih
          · simpa [hpy2, hm, lookupYM, hne] using ih

theorem diffKeysStep_lookup_modified (recur : YMap → YMap → YMap) {yo yn : YMap} {k : String}
    {vo vn : Yaml} (hyo : lookupYM k yo = some vo) (hyn : lookupYM k yn = some vn)
    (hpy : pyEq vo vn = false) (hm : (isMapY vo && isMapY vn) = false) :
    ∀ ks : List String, k ∈ ks →
      lookupYM k (diffKeysStep recur ks yo yn) =
        some (.map [("modified", .map [("old", vo), ("new", vn)])]) := by
  intro ks
  induction ks with
  | nil => intro h; cases h
  | cons key rest ih =>
    intro hmem
    simp only [diffKeysStep]
    by_cases hkey : key = k
    · subst hkey
      simp [hyo, hyn, hpy, hm, lookupYM]
    · have hne : (key == k) = false := beq_false_of_ne hkey
      have hmem2 : k ∈ rest := by
        rcases List.mem_cons.mp hmem with h | h
        · exact absurd h.symm hkey
        · exact h
      rcases h1 : lookupYM key yo with _ | wo <;> rcases h2 : lookupYM key yn with _ | wn
      · exact ih hmem2
      · simpa [lookupYM, hne] using ih hmem2
      · simpa [lookupYM, hne] using ih hmem2
      · by_cases hpy2 : pyEq wo wn
        · simpa [hpy2] using ih hmem2
        · by_cases hm2 : isMapY wo && isMapY wn
          · simpa [hpy2, hm2, lookupYM, hne] using ih hmem2
          · simpa [hpy2, hm2, lookupYM, hne] using ih hmem2

theorem diffKeysStep_lookup_shape (recur : YMap → YMap → YMap) {yo yn : YMap} {k : String}
    {v : Yaml} :
    ∀ ks : List String, lookupYM k (diffKeysStep recur ks yo yn) = some v →
      (lookupYM k yo = none ∧ ∃ x, lookupYM k yn = some x ∧ v = .map [("added", x)]) ∨
      (∃ x, lookupYM k yo = some x ∧ lookupYM k yn = none ∧ v = .map [("removed", x)]) ∨
      (∃ vo vn, lookupYM k yo = some vo ∧ lookupYM k yn = some vn ∧ pyEq vo vn = false ∧
        (((isMapY vo && isMapY vn) = true ∧ v = .map (recur (asMap vo) (asMap vn))) ∨
         ((isMapY vo && isMapY vn) = false ∧
          v = .map [("modified", .map [("old", vo), ("new", vn)])]))) := by
  intro ks
  induction ks with
  | nil => intro h; cases h
  | cons key rest ih =>
    intro h
    simp only [diffKeysStep] at h
    by_cases hkey : key = k
    · subst hkey
      rcases h1 : lookupYM key yo with _ | wo <;> rcases h2 : lookupYM key yn with _ | wn <;>
        simp only [h1, h2] at h
      · have hres := ih h
        rw [h1, h2] at hres
        exact hres
      · rw [show lookupYM key ((key, Yaml.map [("added", wn)]) :: diffKeysStep recur rest yo yn)
              = some (Yaml.map [("added", wn)]) by simp [lookupYM]] at h
        exact Or.inl ⟨rfl, wn, rfl, (Option.some_inj.mp h).symm⟩
      · rw [show lookupYM key ((key, Yaml.map [("removed", wo)]) :: diffKeysStep recur rest yo yn)
              = some (Yaml.map [("removed", wo)]) by simp [lookupYM]] at h
        exact Or.inr (Or.inl ⟨wo, rfl, rfl, (Option.some_inj.mp h).symm⟩)
      · by_cases hpy : pyEq wo wn
        · rw [if_pos hpy] at h
          have hres := ih h
          rw [h1, h2] at hres
          exact hres
        · rw [if_neg (by simpa using hpy)] at h
          by_cases hm : isMapY wo && isMapY wn
          · rw [if_pos hm] at h
            rw [show lookupYM key ((key, Yaml.map (recur (asMap wo) (asMap wn))) ::
                  diffKeysStep recur rest yo yn) = some (Yaml.map (recur (asMap wo) (asMap wn)))
                by simp [lookupYM]] at h
            refine Or.inr (Or.inr ⟨wo, wn, rfl, rfl, by simpa using hpy, Or.inl ⟨hm, ?_⟩⟩)
            exact (Option.some_inj.mp h).symm
          · rw [if_neg hm] at h
            rw [show lookupYM key ((key, Yaml.map [("modified", Yaml.map [("old", wo), ("new", wn)])]) ::
                  diffKeysStep recur rest yo yn) =
                  some (Yaml.map [("modified", Yaml.map [("old", wo), ("new", wn)])])
                by simp [lookupYM]] at h
            refine Or.inr (Or.inr ⟨wo, wn, rfl, rfl, by simpa using hpy,
              Or.inr ⟨by simpa using hm, ?_⟩⟩)
            exact (Option.some_inj.mp h).symm
    · have hne : (key == k) = false := beq_false_of_ne hkey
      rcases h1 : lookupYM key yo with _ | wo <;> rcases h2 : lookupYM key yn with _ | wn <;>
        simp only [h1, h2] at h
      · exact ih h
      · rw [show lookupYM k ((key, Yaml.map [("added", wn)]) :: diffKeysStep recur rest yo yn)
              = lookupYM k (diffKeysStep recur rest yo yn) by simp [lookupYM, hne]] at h
        exact ih h
      · rw [show lookupYM k ((key, Yaml.map [("removed", wo)]) :: diffKeysStep recur rest yo yn)
              = lookupYM k (diffKeysStep recur rest yo yn) by simp [lookupYM, hne]] at h
        exact ih h
      · by_cases hpy : pyEq wo wn
        · rw [if_pos hpy] at h
          exact ih h
        · rw [if_neg (by simpa using hpy)] at h
          by_cases hm : isMapY wo && isMapY wn
          · rw [if_pos hm] at h
            rw [show lookupYM k ((key, Yaml.map (recur (asMap wo) (asMap wn))) ::
                  diffKeysStep recur rest yo yn) = lookupYM k (diffKeysStep recur rest yo yn)
                by simp [lookupYM, hne]] at h
            exact ih h
          · rw [if_neg hm] at h
            rw [show lookupYM k ((key, Yaml.map [("modified", Yaml.map [("old", wo), ("new", wn)])]) ::
                  diffKeysStep recur rest yo yn) = lookupYM k (diffKeysStep recur rest yo yn)
                by simp [lookupYM, hne]] at h
            exact ih h

/-! ## Depth, fuel stability, and reflexivity of Python equality -/

theorem ydepth_pos (v : Yaml) : 1 ≤ ydepth v := by
  cases v <;> simp [ydepth]

theorem ydepthL_mem {x : Yaml} : ∀ {xs : List Yaml}, x ∈ xs → ydepth x ≤ ydepthL xs := by
  intro xs
  induction xs with
  | nil => intro h; cases h
  | cons y ys ih =>
    intro h
    rcases List.mem_cons.mp h with h1 | h1
    · subst h1; simp [ydepthL]
    · simp only [ydepthL]
      exact le_trans (ih h1) (le_max_right _ _)

theorem ydepthM_mem {k : String} {x : Yaml} : ∀ {m : YMap}, (k, x) ∈ m → ydepth x ≤ ydepthM m := by
  intro m
  induction m with
  | nil => intro h; cases h
  | cons kv rest ih =>
    intro h
    obtain ⟨k2, w⟩ := kv
    rcases List.mem_cons.mp h with h1 | h1
    · cases h1; simp [ydepthM]
    · simp only [ydepthM]
      exact le_trans (ih h1) (le_max_right _ _)

theorem ydepthM_lookup {k : String} {m : YMap} {v : Yaml} (h : lookupYM k m = some v) :
    ydepth v ≤ ydepthM m :=
  ydepthM_mem (mem_of_lookupYM h)

theorem allEqOfMem {α : Type} {f g : α → Bool} :
    ∀ {xs : List α}, (∀ x ∈ xs, f x = g x) → xs.all f = xs.all g := by
  intro xs
  induction xs with
  | nil => intro _; rfl
  | cons y ys ih =>
    intro h
    simp only [List.all_cons, h y (List.mem_cons_self y ys),
      ih (fun x hx => h x (List.mem_cons_of_mem y hx))]

theorem WFYF_fuel : ∀ (f1 : Nat) (v : Yaml) (f2 : Nat), ydepth v ≤ f1 → ydepth v ≤ f2 →
    WFYF f1 v = WFYF f2 v := by
  intro f1
  induction f1 with
  | zero =>
    intro v f2 h1 _
    have := ydepth_pos v
    omega
  | succ f1 ih =>
    intro v f2 h1 h2
    match f2, h2 with
    | 0, h2 =>
      have := ydepth_pos v
      omega
    | f2 + 1, h2 =>
      cases v with
      | null => rfl
      | bool b => rfl
      | int n => rfl
      | str s => rfl
      | list xs =>
        simp only [WFYF]
        refine allEqOfMem (fun x hx => ih x f2 ?_ ?_)
        · have := ydepthL_mem hx
          simp only [ydepth] at h1
          omega
        · have := ydepthL_mem hx
          simp only [ydepth] at h2
          omega
      | map m =>
        simp only [WFYF]
        congr 1
        refine allEqOfMem (fun x hx => ?_)
        obtain ⟨⟨k2, w⟩, hkv, rfl⟩ := List.mem_map.mp hx
        refine ih w f2 ?_ ?_
        · have := ydepthM_mem hkv
          simp only [ydepth] at h1
          omega
        · have := ydepthM_mem hkv
          simp only [ydepth] at h2
          omega

theorem WFY_values {m : YMap} (h : WFY (.map m) = true) :
    nodupStr (m.map (·.1)) = true ∧ ∀ kv ∈ m, WFY kv.2 = true := by
  unfold WFY at h
  simp only [ydepth] at h
  rw [show 1 + ydepthM m = ydepthM m + 1 by omega] at h
  simp only [WFYF, Bool.and_eq_true, List.all_eq_true] at h
  refine ⟨h.1, fun kv hkv => ?_⟩
  have h2 := h.2 kv.2 (List.mem_map.mpr ⟨kv, hkv, rfl⟩)
  unfold WFY
  rw [WFYF_fuel (ydepth kv.2) kv.2 (ydepthM m) (le_refl _) (ydepthM_mem (k := kv.1) (by simpa using hkv))]
  exact h2

theorem WFY_list {xs : List Yaml} (h : WFY (.list xs) = true) : ∀ x ∈ xs, WFY x = true := by
  unfold WFY at h
  simp only [ydepth] at h
  rw [show 1 + ydepthL xs = ydepthL xs + 1 by omega] at h
  simp only [WFYF, List.all_eq_true] at h
  intro x hx
  have h2 := h x hx
  unfold WFY
  rw [WFYF_fuel (ydepth x) x (ydepthL xs) (le_refl _) (ydepthL_mem hx)]
  exact h2

theorem pyEqListStep_refl {r : Yaml → Yaml → Bool} :
    ∀ {xs : List Yaml}, (∀ x ∈ xs, r x x = true) → pyEqListStep r xs xs = true := by
  intro xs
  induction xs with
  | nil => intro _; rfl
  | cons y ys ih =>
    intro h
    simp only [pyEqListStep, Bool.and_eq_true]
    exact ⟨h y (List.mem_cons_self y ys), ih (fun x hx => h x (List.mem_cons_of_mem y hx))⟩

theorem pyEqEntriesStep_sub {r : Yaml → Yaml → Bool} {m : YMap}
    (hnd : nodupStr (m.map (·.1)) = true) :
    ∀ {rest : YMap}, (∀ kv ∈ rest, kv ∈ m) → (∀ kv ∈ rest, r kv.2 kv.2 = true) →
      pyEqEntriesStep r rest m = true := by
  intro rest
  induction rest with
  | nil => intro _ _; rfl
  | cons kv rest2 ih =>
    intro hsub hr
    obtain ⟨k, v⟩ := kv
    simp only [pyEqEntriesStep, Bool.and_eq_true]
    constructor
    · rw [lookupYM_of_mem_nodup hnd (hsub (k, v) (List.mem_cons_self _ _))]
      exact hr (k, v) (List.mem_cons_self _ _)
    · exact ih (fun kv2 h2 => hsub kv2 (List.mem_cons_of_mem _ h2))
        (fun kv2 h2 => hr kv2 (List.mem_cons_of_mem _ h2))

theorem pyEqF_refl : ∀ (f : Nat) (v : Yaml), 2 * ydepth v ≤ f → WFY v = true →
    pyEqF f v v = true := by
  intro f
  induction f with
  | zero =>
    intro v h1 _
    have := ydepth_pos v
    omega
  | succ f ih =>
    intro v h1 hwf
    cases v with
    | null => rfl
    | bool b => simp [pyEqF]
    | int n => simp [pyEqF]
    | str s => simp [pyEqF]
    | list xs =>
      simp only [pyEqF]
      refine pyEqListStep_refl (fun x hx => ih x ?_ (WFY_list hwf x hx))
      have := ydepthL_mem hx
      simp only [ydepth] at h1
      omega
    | map m =>
      simp only [pyEqF, Bool.and_eq_true, beq_self_eq_true, true_and]
      obtain ⟨hnd, hvals⟩ := WFY_values hwf
      refine pyEqEntriesStep_sub hnd (fun kv h2 => h2) (fun kv h2 => ih kv.2 ?_ (hvals kv h2))
      have := ydepthM_mem (k := kv.1) (x := kv.2) (by simpa using h2)
      simp only [ydepth] at h1
      omega

theorem pyEq_refl {v : Yaml} (hwf : WFY v = true) : pyEq v v = true :=
  pyEqF_refl (ydepth v + ydepth v) v (by omega) hwf

theorem WFY_lookup {m : YMap} {k : String} {v : Yaml} (hwf : WFY (.map m) = true)
    (h : lookupYM k m = some v) : WFY v = true :=
  (WFY_values hwf).2 (k, v) (mem_of_lookupYM h)

theorem diffMapF_self (σ : KeyOrder) {t : YMap} (hwf : WFY (.map t) = true) :
    ∀ f : Nat, diffMapF σ f t t = [] := by
  intro f
  cases f with
  | zero => rfl
  | succ f =>
    simp only [diffMapF]
    exact diffKeysStep_self _ t (fun k v h => pyEq_refl (WFY_lookup hwf h)) _

theorem recursive_yaml_diff_self (σ : KeyOrder) {y : Yaml} (hwf : WFY y = true) :
    recursive_yaml_diff σ y y = [] := by
  cases y with
  | map m => exact diffMapF_self σ hwf _
  | null => rfl
  | bool b => rfl
  | int n => rfl
  | str s => rfl
  | list xs => rfl

/-! ## Error propagation: every raised error originates in a collaborator -/

theorem git_diff_filenames_error {w : World} {o n : String} {r : Bool} {e : String}
    (h : git_diff_filenames w o n r = .error e) : CollabFail w e := by
  unfold git_diff_filenames git_diff_regular at h
  rcases hx : w.diffRaw with e2 | s <;> simp only [hx] at h
  · injection h with h2
    subst h2
    exact Or.inl hx
  · exact Except.noConfusion h

theorem compare_yaml_files_error {w : World} {σ : KeyOrder} {o n p e : String}
    (h : compare_yaml_files w σ o n p = .error e) : CollabFail w e := by
  unfold compare_yaml_files get_file_content_by_commit load_yaml_content at h
  repeat' split at h
  all_goals first
    | exact Except.noConfusion h
    | (injection h with h2; subst h2; first
        | exact Or.inr (Or.inl ⟨o, p, by assumption⟩)
        | exact Or.inr (Or.inl ⟨n, p, by assumption⟩)
        | exact Or.inr (Or.inr ⟨_, by assumption⟩))

theorem get_config_yml_versions_error {w : World} {c p e : String}
    (h : get_config_yml_versions w c p = .error e) : CollabFail w e := by
  unfold get_config_yml_versions get_file_content_by_commit load_yaml_content at h
  repeat' split at h
  all_goals first
    | exact Except.noConfusion h
    | (injection h with h2; subst h2; first
        | exact Or.inr (Or.inl ⟨c, p, by assumption⟩)
        | exact Or.inr (Or.inr ⟨_, by assumption⟩))

theorem get_conandata_yml_versions_error {w : World} {c p e : String}
    (h : get_conandata_yml_versions w c p = .error e) : CollabFail w e := by
  unfold get_conandata_yml_versions get_file_content_by_commit load_yaml_content at h
  repeat' split at h
  all_goals first
    | exact Except.noConfusion h
    | (injection h with h2; subst h2; first
        | exact Or.inr (Or.inl ⟨c, p, by assumption⟩)
        | exact Or.inr (Or.inr ⟨_, by assumption⟩))

theorem get_conandata_yml_urls_error {w : World} {c p e : String}
    (h : get_conandata_yml_urls w c p = .error e) : CollabFail w e := by
  unfold get_conandata_yml_urls get_file_content_by_commit load_yaml_content at h
  repeat' split at h
  all_goals first
    | exact Except.noConfusion h
    | (injection h with h2; subst h2; first
        | exact Or.inr (Or.inl ⟨c, p, by assumption⟩)
        | exact Or.inr (Or.inr ⟨_, by assumption⟩))

theorem check_sources_entries_error {w : World} {o cd e : String} :
    ∀ {vis : List Yaml}, check_sources_entries w o cd vis = .error e → CollabFail w e := by
  intro vis
  induction vis with
  | nil => intro h; exact Except.noConfusion h
  | cons vi rest ih =>
    intro h
    unfold check_sources_entries at h
    repeat' (first | split at h | simp only [] at h)
    all_goals first
      | exact Except.noConfusion h
      | (injection h with h2; subst h2; exact get_conandata_yml_urls_error (by assumption))
      | exact ih h

theorem detect_bump_version_error {w : World} {σ : KeyOrder} {o n e : String}
    (h : detect_bump_version w σ o n = .error e) : CollabFail w e := by
  unfold detect_bump_version at h
  repeat' (first | split at h | simp only [] at h)
  all_goals first
    | exact Except.noConfusion h
    | (injection h with h2; subst h2; first
        | exact git_diff_filenames_error (by assumption)
        | exact compare_yaml_files_error (by assumption)
        | exact get_config_yml_versions_error (by assumption)
        | exact get_conandata_yml_versions_error (by assumption)
        | exact check_sources_entries_error (by assumption))

/-! ## Inversion of a successful, non-empty run -/

theorem detect_ok_inv {w : World} {σ : KeyOrder} {o n : String} {l ws : List String}
    (h : detect_bump_version w σ o n = .ok (l, ws)) (hne : l ≠ []) :
    ∃ (files : List String) (cfgPath cdPath : String) (cdiffC cdiffD : YMap)
      (cfgV cdV : List String),
      git_diff_filenames w o n true = .ok files ∧
      files.length = 2 ∧
      w.isdir (relpathStr w.cwd (commonprefixStr (files.map (abspathStr w.cwd)))) = true ∧
      files.filter (fun it => basename it == "config.yml") = [cfgPath] ∧
      files.filter (fun it => basename it == "conandata.yml") = [cdPath] ∧
      compare_yaml_files w σ o n cfgPath = .ok cdiffC ∧
      keySetEqSingle (cdiffC.map (·.1)) "versions" = true ∧
      (valuesOfY (getYM cdiffC "versions")).all pure_folder_add = true ∧
      l = keysOfY (getYM cdiffC "versions") ∧
      (∀ v ∈ l, semver_match v = true) ∧
      get_config_yml_versions w n cfgPath = .ok cfgV ∧
      get_conandata_yml_versions w n cdPath = .ok cdV ∧
      sortStrings cfgV = sortStrings cdV ∧
      compare_yaml_files w σ o n cdPath = .ok cdiffD ∧
      keySetEqSingle (cdiffD.map (·.1)) "sources" = true ∧
      check_sources_entries w o cdPath (valuesOfY (getYM cdiffD "sources")) = .ok true ∧
      ws = [] := by
  unfold detect_bump_version at h
  rcases h1 : git_diff_filenames w o n true with e | files <;> simp only [h1] at h
  · exact Except.noConfusion h
  by_cases h2 : (files.length != 2) = true
  · rw [if_pos h2] at h
    injection h with h3
    injection h3 with h4 h5
    exact absurd h4.symm hne
  rw [if_neg h2] at h
  have hlen : files.length = 2 := by simpa using h2
  try simp only [] at h
  by_cases h4 : (!(w.isdir (relpathStr w.cwd (commonprefixStr (files.map (abspathStr w.cwd)))))) = true
  · rw [if_pos h4] at h
    injection h with h3
    injection h3 with h4 h5
    exact absurd h4.symm hne
  rw [if_neg h4] at h
  have hdir : w.isdir (relpathStr w.cwd (commonprefixStr (files.map (abspathStr w.cwd)))) = true := by
    simpa using h4
  rcases h5 : git_diff_filenames w o n false with e | files2 <;> simp only [h5] at h
  · exact Except.noConfusion h
  have hfe : files2 = files := by
    have heq : git_diff_filenames w o n true = git_diff_filenames w o n false := rfl
    have := (h1.symm.trans (heq.trans h5))
    injection this with h6
    exact h6.symm
  subst hfe
  try simp only [] at h
  by_cases h6 : ((files2.filter (fun it => basename it == "config.yml")).length != 1) = true
  · rw [if_pos h6] at h
    injection h with h3
    injection h3 with h4 h5
    exact absurd h4.symm hne
  rw [if_neg h6] at h
  obtain ⟨cfgPath, hcfg⟩ : ∃ cfgPath, files2.filter (fun it => basename it == "config.yml") = [cfgPath] :=
    List.length_eq_one.mp (by simpa using h6)
  by_cases h7 : ((files2.filter (fun it => basename it == "conandata.yml")).length != 1) = true
  · rw [if_pos h7] at h
    injection h with h3
    injection h3 with h4 h5
    exact absurd h4.symm hne
  rw [if_neg h7] at h
  obtain ⟨cdPath, hcd⟩ : ∃ cdPath, files2.filter (fun it => basename it == "conandata.yml") = [cdPath] :=
    List.length_eq_one.mp (by simpa using h7)
  rw [hcfg, hcd] at h
  simp only [List.headD_cons] at h
  rcases h8 : compare_yaml_files w σ o n cfgPath with e | cdiffC <;> simp only [h8] at h
  · exact Except.noConfusion h
  by_cases h9 : (!(keySetEqSingle (cdiffC.map (·.1)) "versions")) = true
  · rw [if_pos h9] at h
    injection h with h3
    injection h3 with h4 h5
    exact absurd h4.symm hne
  rw [if_neg h9] at h
  have hks1 : keySetEqSingle (cdiffC.map (·.1)) "versions" = true := by simpa using h9
  by_cases h10 : (!((valuesOfY (getYM cdiffC "versions")).all pure_folder_add)) = true
  · rw [if_pos h10] at h
    injection h with h3
    injection h3 with h4 h5
    exact absurd h4.symm hne
  rw [if_neg h10] at h
  have hpure : (valuesOfY (getYM cdiffC "versions")).all pure_folder_add = true := by simpa using h10
  try simp only [] at h
  rcases h11 : (keysOfY (getYM cdiffC "versions")).find? (fun version => !(semver_match version))
      with _ | v <;> simp only [h11] at h
  case neg.some =>
    injection h with h3
    injection h3 with h4 h5
    exact absurd h4.symm hne
  have hsem : ∀ v ∈ keysOfY (getYM cdiffC "versions"), semver_match v = true := by
    intro v hv
    have := List.find?_eq_none.mp h11 v hv
    simpa using this
  rcases h12 : get_config_yml_versions w n cfgPath with e | cfgV <;> simp only [h12] at h
  · exact Except.noConfusion h
  rcases h13 : get_conandata_yml_versions w n cdPath with e | cdV <;> simp only [h13] at h
  · exact Except.noConfusion h
  by_cases h14 : (sortStrings cfgV != sortStrings cdV) = true
  · rw [if_pos h14] at h
    injection h with h3
    injection h3 with h4 h5
    exact absurd h4.symm hne
  rw [if_neg h14] at h
  have hsort : sortStrings cfgV = sortStrings cdV := by simpa using h14
  rcases h15 : compare_yaml_files w σ o n cdPath with e | cdiffD <;> simp only [h15] at h
  · exact Except.noConfusion h
  by_cases h16 : (!(keySetEqSingle (cdiffD.map (·.1)) "sources")) = true
  · rw [if_pos h16] at h
    injection h with h3
    injection h3 with h4 h5
    exact absurd h4.symm hne
  rw [if_neg h16] at h
  have hks2 : keySetEqSingle (cdiffD.map (·.1)) "sources" = true := by simpa using h16
  rcases h17 : check_sources_entries w o cdPath (valuesOfY (getYM cdiffD "sources"))
      with e | okb <;> simp only [h17] at h
  · exact Except.noConfusion h
  cases okb with
  | false =>
    rw [if_neg (by simp)] at h
    injection h with h3
    injection h3 with h4 h5
    exact absurd h4.symm hne
  | true =>
    rw [if_pos rfl] at h
    injection h with h3
    injection h3 with h4 h5
    refine ⟨files2, cfgPath, cdPath, cdiffC, cdiffD, cfgV, cdV, rfl, hlen, hdir, hcfg, hcd, h8,
      hks1, hpure, h4.symm, ?_, h12, h13, hsort, h15, hks2, h17, h5.symm⟩
    intro v hv
    exact hsem v (h4 ▸ hv)

theorem lookup_of_keySetEqSingle {m : YMap} {k : String}
    (h : keySetEqSingle (m.map (·.1)) k = true) :
    ∃ V, lookupYM k m = some V ∧ getYM m k = V := by
  cases m with
  | nil => simp [keySetEqSingle] at h
  | cons kv rest =>
    obtain ⟨k0, V⟩ := kv
    simp only [keySetEqSingle, List.map_cons, List.all_cons, Bool.and_eq_true] at h
    have hk0 : (k0 == k) = true := h.2.1
    refine ⟨V, ?_, ?_⟩
    · simp [lookupYM, hk0]
    · simp [getYM, lookupYM, hk0]

theorem config_diff_chars {w : World} {σ : KeyOrder} {o n cfgPath : String} {cdiffC : YMap}
    {l : List String} (hσ : SetOrder σ)
    (hcmp : compare_yaml_files w σ o n cfgPath = .ok cdiffC)
    (hks : keySetEqSingle (cdiffC.map (·.1)) "versions" = true)
    (hl : l = keysOfY (getYM cdiffC "versions"))
    (hne : l ≠ [])
    (hsem : ∀ v ∈ l, semver_match v = true) :
    ∃ (mo mn : YMap),
      get_config_yml_versions w o cfgPath = .ok (mo.map (·.1)) ∧
      get_config_yml_versions w n cfgPath = .ok (mn.map (·.1)) ∧
      l.Nodup ∧ l.Perm (changedKeys mo mn) ∧
      (∀ k, k ∈ mn.map (·.1) → k ∉ mo.map (·.1) → k ∈ l) := by
  unfold compare_yaml_files at hcmp
  rcases hs1 : get_file_content_by_commit w o cfgPath with e | s1 <;> simp only [hs1] at hcmp
  · exact Except.noConfusion hcmp
  rcases hs2 : get_file_content_by_commit w n cfgPath with e | s2 <;> simp only [hs2] at hcmp
  · exact Except.noConfusion hcmp
  rcases hy1 : load_yaml_content w s1 with e | y1 <;> simp only [hy1] at hcmp
  · exact Except.noConfusion hcmp
  rcases hy2 : load_yaml_content w s2 with e | y2 <;> simp only [hy2] at hcmp
  · exact Except.noConfusion hcmp
  injection hcmp with hdiff
  -- the diff of two snapshots is non-trivial only when both parse to mappings
  have hmaps : ∃ (a b : YMap), y1 = .map a ∧ y2 = .map b := by
    cases y1 <;> cases y2 <;>
      first
        | exact ⟨_, _, rfl, rfl⟩
        | (exfalso
           rw [← hdiff] at hks
           simp [recursive_yaml_diff, keySetEqSingle] at hks)
  obtain ⟨a, b, rfl, rfl⟩ := hmaps
  rw [show recursive_yaml_diff σ (.map a) (.map b) = diffMapF σ (ydepthM a + ydepthM b) a b
      from rfl] at hdiff
  rcases hF : ydepthM a + ydepthM b with _ | f
  · rw [hF] at hdiff
    rw [show diffMapF σ 0 a b = [] from rfl] at hdiff
    rw [← hdiff] at hks
    simp [keySetEqSingle] at hks
  rw [hF] at hdiff
  rw [show diffMapF σ (f + 1) a b = diffKeysStep (diffMapF σ f) (σ (unionKeys a b)) a b
      from rfl] at hdiff
  obtain ⟨V, hlook, hget⟩ := lookup_of_keySetEqSingle hks
  rw [← hdiff] at hlook
  have hshape := diffKeysStep_lookup_shape (diffMapF σ f) (σ (unionKeys a b)) hlook
  rcases hshape with ⟨ha, x, hb, hV⟩ | ⟨x, ha, hb, hV⟩ | ⟨vo, vn, ha, hb, hpy, hcase⟩
  · -- the whole versions collection was added: the lone diff key is "added"
    exfalso
    rw [hl, hget, hV] at hsem
    have := hsem "added" (by simp [keysOfY])
    revert this
    decide
  · exfalso
    rw [hl, hget, hV] at hsem
    have := hsem "removed" (by simp [keysOfY])
    revert this
    decide
  · rcases hcase with ⟨hm, hV⟩ | ⟨hm, hV⟩
    · -- both snapshots carry a versions mapping: the nested diff case
      have hvo : ∃ mo, vo = .map mo := by
        cases vo
        case map mo => exact ⟨mo, rfl⟩
        all_goals simp [isMapY] at hm
      have hvn : ∃ mn, vn = .map mn := by
        cases vn
        case map mn => exact ⟨mn, rfl⟩
        all_goals simp [isMapY] at hm
      obtain ⟨mo, rfl⟩ := hvo
      obtain ⟨mn, rfl⟩ := hvn
      rw [show asMap (Yaml.map mo) = mo from rfl, show asMap (Yaml.map mn) = mn from rfl] at hV
      -- the fuel cannot be exhausted at this level, or the list would be empty
      rcases hf2 : f with _ | f2
      · exfalso
        rw [hf2] at hV
        rw [hl, hget, hV] at hne
        simp [keysOfY, show diffMapF σ 0 mo mn = [] from rfl] at hne
      rw [hf2] at hV
      rw [show diffMapF σ (f2 + 1) mo mn = diffKeysStep (diffMapF σ f2) (σ (unionKeys mo mn)) mo mn
          from rfl] at hV
      have hkeys : l = ((σ (unionKeys mo mn)).filter (fun k => diffEmits mo mn k)) := by
        rw [hl, hget, hV]
        simp only [keysOfY]
        exact diffKeysStep_keys _ _ _ _
      have hperm : ((σ (unionKeys mo mn)).filter (fun k => diffEmits mo mn k)).Perm
          (changedKeys mo mn) := List.Perm.filter _ (hσ (unionKeys mo mn))
      refine ⟨mo, mn, ?_, ?_, ?_, ?_, ?_⟩
      · unfold get_config_yml_versions
        simp only [hs1, hy1]
        have hin : yIn "versions" (Yaml.map a) = true := by
          simp [yIn, ha]
        have hgy : getY (Yaml.map a) "versions" = Yaml.map mo := by
          simp [getY, asMap, ha]
        rw [show (if yIn "versions" (Yaml.map a) && isMapY (getY (Yaml.map a) "versions")
              then keysOfY (getY (Yaml.map a) "versions") else []) = mo.map (·.1) by
            rw [hin, hgy]; simp [isMapY, keysOfY]]
      · unfold get_config_yml_versions
        simp only [hs2, hy2]
        have hin : yIn "versions" (Yaml.map b) = true := by
          simp [yIn, hb]
        have hgy : getY (Yaml.map b) "versions" = Yaml.map mn := by
          simp [getY, asMap, hb]
        rw [show (if yIn "versions" (Yaml.map b) && isMapY (getY (Yaml.map b) "versions")
              then keysOfY (getY (Yaml.map b) "versions") else []) = mn.map (·.1) by
            rw [hin, hgy]; simp [isMapY, keysOfY]]
      · rw [hkeys]
        exact List.Nodup.filter _ ((hσ (unionKeys mo mn)).nodup_iff.mpr (unionKeys_nodup mo mn))
      · rw [hkeys]
        exact hperm
      · intro k hkn hko
        rw [hkeys]
        rw [List.Perm.mem_iff hperm]
        unfold changedKeys
        rw [List.mem_filter]
        refine ⟨mem_unionKeys.mpr (Or.inr hkn), ?_⟩
        unfold diffEmits
        rw [lookupYM_eq_none.mpr hko]
        rcases hkb : lookupYM k mn with _ | v
        · exact absurd hkn (lookupYM_eq_none.mp hkb)
        · rfl
    · -- a modified versions value that is not a dict on both sides
      exfalso
      rw [hl, hget, hV] at hsem
      have := hsem "modified" (by simp [keysOfY])
      revert this
      decide

theorem conandata_diff_patches_unchanged {w : World} {σ : KeyOrder} {o n cdPath : String}
    {cdiffD : YMap} (hσ : SetOrder σ)
    (hcmp : compare_yaml_files w σ o n cdPath = .ok cdiffD)
    (hks : keySetEqSingle (cdiffD.map (·.1)) "sources" = true) :
    ∃ (s1 s2 : String) (a b : YMap),
      get_file_content_by_commit w o cdPath = .ok s1 ∧
      get_file_content_by_commit w n cdPath = .ok s2 ∧
      load_yaml_content w s1 = .ok (.map a) ∧
      load_yaml_content w s2 = .ok (.map b) ∧
      lookupYM "patches" (recursive_yaml_diff σ (.map a) (.map b)) = none ∧
      ((lookupYM "patches" a = none ∧ lookupYM "patches" b = none) ∨
       (∃ p1 p2, lookupYM "patches" a = some p1 ∧ lookupYM "patches" b = some p2 ∧
         pyEq p1 p2 = true)) := by
  unfold compare_yaml_files at hcmp
  rcases hs1 : get_file_content_by_commit w o cdPath with e | s1 <;> simp only [hs1] at hcmp
  · exact Except.noConfusion hcmp
  rcases hs2 : get_file_content_by_commit w n cdPath with e | s2 <;> simp only [hs2] at hcmp
  · exact Except.noConfusion hcmp
  rcases hy1 : load_yaml_content w s1 with e | y1 <;> simp only [hy1] at hcmp
  · exact Except.noConfusion hcmp
  rcases hy2 : load_yaml_content w s2 with e | y2 <;> simp only [hy2] at hcmp
  · exact Except.noConfusion hcmp
  injection hcmp with hdiff
  have hmaps : ∃ (a b : YMap), y1 = .map a ∧ y2 = .map b := by
    cases y1 <;> cases y2 <;>
      first
        | exact ⟨_, _, rfl, rfl⟩
        | (exfalso
           rw [← hdiff] at hks
           simp [recursive_yaml_diff, keySetEqSingle] at hks)
  obtain ⟨a, b, rfl, rfl⟩ := hmaps
  have hnot : "patches" ∉ cdiffD.map (·.1) := by
    intro hmem
    simp only [keySetEqSingle, Bool.and_eq_true, List.all_eq_true] at hks
    have := hks.2 "patches" hmem
    simp at this
  refine ⟨s1, s2, a, b, rfl, rfl, hy1, hy2, ?_, ?_⟩
  · rw [hdiff]
    exact lookupYM_eq_none.mpr hnot
  · rw [show recursive_yaml_diff σ (.map a) (.map b) =
        diffMapF σ (ydepthM a + ydepthM b) a b from rfl] at hdiff
    have contra : diffEmits a b "patches" = true → "patches" ∈ unionKeys a b → False := by
      intro hemit hmemu
      have hFpos : 1 ≤ ydepthM a + ydepthM b := by
        rcases mem_unionKeys.mp hmemu with hka | hkb
        · rcases hv : lookupYM "patches" a with _ | v
          · exact absurd hka (lookupYM_eq_none.mp hv)
          · have := le_trans (ydepth_pos v) (ydepthM_lookup hv)
            omega
        · rcases hv : lookupYM "patches" b with _ | v
          · exact absurd hkb (lookupYM_eq_none.mp hv)
          · have := le_trans (ydepth_pos v) (ydepthM_lookup hv)
            omega
      rcases hF : ydepthM a + ydepthM b with _ | f
      · omega
      rw [hF] at hdiff
      rw [show diffMapF σ (f + 1) a b =
          diffKeysStep (diffMapF σ f) (σ (unionKeys a b)) a b from rfl] at hdiff
      have hkeys := diffKeysStep_keys (diffMapF σ f) (σ (unionKeys a b)) a b
      rw [hdiff] at hkeys
      refine hnot ?_
      rw [hkeys]
      exact List.mem_filter.mpr ⟨(hσ (unionKeys a b)).mem_iff.mpr hmemu, hemit⟩
    rcases hpa : lookupYM "patches" a with _ | p1 <;> rcases hpb : lookupYM "patches" b with _ | p2
    · exact Or.inl ⟨rfl, rfl⟩
    · exfalso
      refine contra (by simp [diffEmits, hpa, hpb]) ?_
      exact mem_unionKeys.mpr (Or.inr (lookupYM_isSome.mp (by simp [hpb])))
    · exfalso
      refine contra (by simp [diffEmits, hpa, hpb]) ?_
      exact mem_unionKeys.mpr (Or.inl (lookupYM_isSome.mp (by simp [hpa])))
    · by_cases hpy : pyEq p1 p2 = true
      · exact Or.inr ⟨p1, p2, rfl, rfl, hpy⟩
      · exfalso
        have hpyf : pyEq p1 p2 = false := by simpa using hpy
        refine contra (by simp [diffEmits, hpa, hpb, hpyf]) ?_
        exact mem_unionKeys.mpr (Or.inl (lookupYM_isSome.mp (by simp [hpa])))

theorem check_sources_entries_ok {w : World} {o cd : String} :
    ∀ {vis : List Yaml}, check_sources_entries w o cd vis = .ok true →
      ∀ vi ∈ vis, conformSource vi = true := by
  intro vis
  induction vis with
  | nil => intro _ vi hvi; cases hvi
  | cons vi0 rest ih =>
    intro h vi hvi
    unfold check_sources_entries at h
    by_cases h1 : (!(keySetEqSingle (keysOfY vi0) "added")) = true
    · rw [if_pos h1] at h
      injection h with h2
      exact Bool.noConfusion h2
    rw [if_neg h1] at h
    by_cases h2 : (!((keysOfY (getY vi0 "added")).length == 2
        && ["url", "sha256"].all (fun k2 => (keysOfY (getY vi0 "added")).contains k2))) = true
    · rw [if_pos h2] at h
      injection h with h3
      exact Bool.noConfusion h3
    rw [if_neg h2] at h
    by_cases h3 : (!(isStrY (getY (getY vi0 "added") "sha256"))) = true
    · rw [if_pos h3] at h
      injection h with h4
      exact Bool.noConfusion h4
    rw [if_neg h3] at h
    rcases h4 : get_conandata_yml_urls w o cd with e | urls <;> simp only [h4] at h
    · exact Except.noConfusion h
    try simp only [] at h
    by_cases h5 : (!((normalizeUrl (getY (getY vi0 "added") "url")).all
        (fun url => (urls.map (·.hostname)).contains (urlparse url).hostname))) = true
    · rw [if_pos h5] at h
      injection h with h6
      exact Bool.noConfusion h6
    rw [if_neg h5] at h
    by_cases h6 : (!((normalizeUrl (getY (getY vi0 "added") "url")).all
        (fun url => (urls.map (·.scheme)).contains (urlparse url).scheme))) = true
    · rw [if_pos h6] at h
      injection h with h7
      exact Bool.noConfusion h7
    rw [if_neg h6] at h
    rcases List.mem_cons.mp hvi with hv | hv
    · subst hv
      have g1 : keySetEqSingle (keysOfY vi) "added" = true := by simpa using h1
      have g2 : ((keysOfY (getY vi "added")).length == 2
          && ["url", "sha256"].all (fun k2 => (keysOfY (getY vi "added")).contains k2)) = true := by
        simpa using h2
      have g3 : isStrY (getY (getY vi "added") "sha256") = true := by simpa using h3
      simp only [List.all_cons, List.all_nil, Bool.and_eq_true] at g2
      simp only [conformSource, Bool.and_eq_true]
      exact ⟨⟨⟨⟨g1, g2.1⟩, g2.2.1⟩, g2.2.2.1⟩, g3⟩
    · exact ih h vi hv

theorem perm_of_sortStrings_eq {l1 l2 : List String} (h : sortStrings l1 = sortStrings l2) :
    l1.Perm l2 :=
  (sortStrings_perm l1).symm.trans (h ▸ sortStrings_perm l2)

/-! ## Claim theorems -/

/-- C1 (counterexample): a pair of snapshots forming a legitimate bump of
`0.1.1` (`Wbase`, accepted with `["0.1.1"]`) is turned into a rejected run
(`[]`) by additionally adding a well-formed top-level `patches` entry for the
new version to the new `conandata.yml` (`WpatchesAdded`, whose snapshots are
identical to `Wbase` except for that entry).  This falsifies the claim that
the addition does not block the result. -/
theorem C1_counterexample_patches_blocks :
    Wbase.parseYaml "d1" =
      .ok (.map [("sources", .map [("0.1.0", srcEntry "s0" "http://foo.com/a0"),
                                   ("0.1.1", srcEntry "s1" "http://foo.com/a1")])]) ∧
    WpatchesAdded.parseYaml "d1" =
      .ok (.map [("sources", .map [("0.1.0", srcEntry "s0" "http://foo.com/a0"),
                                   ("0.1.1", srcEntry "s1" "http://foo.com/a1")]),
                 ("patches", patchesNode)]) ∧
    detect_bump_version Wbase id "o" "n" = .ok (["0.1.1"], []) ∧
    detect_bump_version WpatchesAdded id "o" "n" = .ok ([], []) :=
  ⟨rfl, rfl, rfl, rfl⟩

/-- C1 (amended): in every run, a non-empty bump result requires the
top-level `patches` entry of `conandata.yml` to contribute no diff entry:
either `patches` is absent from both snapshots, or it is present in both
with Python-equal (identical) values.  Contrapositively, adding or changing
a top-level `patches` entry concurrently with a bump forces an empty result
(or a collaborator error); only an identical `patches` mapping does not
block, as the concrete runs `WpatchesKept` (accepted) and `WpatchesAdded`
(zeroed) illustrate. -/
theorem C1_amended_patches_changes_block :
    (∀ (w : World) (σ : KeyOrder) (o n : String) (l ws : List String), SetOrder σ →
        detect_bump_version w σ o n = .ok (l, ws) → l ≠ [] →
        ∃ (files : List String) (cdPath s1 s2 : String) (a b : YMap),
          git_diff_filenames w o n true = .ok files ∧
          files.filter (fun it => basename it == "conandata.yml") = [cdPath] ∧
          get_file_content_by_commit w o cdPath = .ok s1 ∧
          get_file_content_by_commit w n cdPath = .ok s2 ∧
          load_yaml_content w s1 = .ok (.map a) ∧
          load_yaml_content w s2 = .ok (.map b) ∧
          lookupYM "patches" (recursive_yaml_diff σ (.map a) (.map b)) = none ∧
          ((lookupYM "patches" a = none ∧ lookupYM "patches" b = none) ∨
           (∃ p1 p2, lookupYM "patches" a = some p1 ∧ lookupYM "patches" b = some p2 ∧
             pyEq p1 p2 = true))) ∧
    detect_bump_version WpatchesKept id "o" "n" = .ok (["0.1.1"], []) ∧
    detect_bump_version WpatchesAdded id "o" "n" = .ok ([], []) := by
  refine ⟨?_, rfl, rfl⟩
  intro w σ o n l ws hσ h hne
  obtain ⟨files, cfgPath, cdPath, cdiffC, cdiffD, cfgV, cdV, h1, _, _, _, hcd, _, _, _, _, _, _,
    _, _, hcmp2, hks2, _, _⟩ := detect_ok_inv h hne
  obtain ⟨s1, s2, a, b, hs1, hs2, hy1, hy2, hnone, hsame⟩ :=
    conandata_diff_patches_unchanged hσ hcmp2 hks2
  exact ⟨files, cdPath, s1, s2, a, b, h1, hcd, hs1, hs2, hy1, hy2, hnone, hsame⟩

/-- C1 (witness): the patches-unchanged necessity applied to the accepted
run whose two snapshots share an identical `patches` mapping. -/
theorem C1_amended_patches_changes_block_witness :
    ∃ (files : List String) (cdPath s1 s2 : String) (a b : YMap),
      git_diff_filenames WpatchesKept "o" "n" true = .ok files ∧
      files.filter (fun it => basename it == "conandata.yml") = [cdPath] ∧
      get_file_content_by_commit WpatchesKept "o" cdPath = .ok s1 ∧
      get_file_content_by_commit WpatchesKept "n" cdPath = .ok s2 ∧
      load_yaml_content WpatchesKept s1 = .ok (.map a) ∧
      load_yaml_content WpatchesKept s2 = .ok (.map b) ∧
      lookupYM "patches" (recursive_yaml_diff id (.map a) (.map b)) = none ∧
      ((lookupYM "patches" a = none ∧ lookupYM "patches" b = none) ∨
       (∃ p1 p2, lookupYM "patches" a = some p1 ∧ lookupYM "patches" b = some p2 ∧
         pyEq p1 p2 = true)) :=
  C1_amended_patches_changes_block.1 WpatchesKept id "o" "n" ["0.1.1"] []
    (fun l => List.Perm.refl l) rfl (by decide)

/-- C2 (counterexample): with the realizable set-iteration order
`List.reverse` (a permutation of the union key list), a legitimate bump of
`0.1.1` and `0.2.0` is returned as `["0.2.0", "0.1.1"]`, while the first-seen
order of those keys in the new `config.yml` snapshot is
`["0.1.1", "0.2.0"]`.  The returned list is therefore not guaranteed to be in
first-seen order. -/
theorem C2_counterexample_order :
    detect_bump_version Wtwo List.reverse "o" "n" = .ok (["0.2.0", "0.1.1"], []) ∧
    (List.reverse (unionKeys (asMap (getY (cfgWith ["0.1.0"]) "versions"))
        (asMap (getY (cfgWith ["0.1.0", "0.1.1", "0.2.0"]) "versions")))).Perm
      (unionKeys (asMap (getY (cfgWith ["0.1.0"]) "versions"))
        (asMap (getY (cfgWith ["0.1.0", "0.1.1", "0.2.0"]) "versions"))) ∧
    (keysOfY (getY (cfgWith ["0.1.0", "0.1.1", "0.2.0"]) "versions")).filter
      (fun k => !((keysOfY (getY (cfgWith ["0.1.0"]) "versions")).contains k)) =
      ["0.1.1", "0.2.0"] ∧
    ["0.2.0", "0.1.1"] ≠ ["0.1.1", "0.2.0"] :=
  ⟨rfl, by decide, by decide, by decide⟩

/-- C2 (amended): whenever `detect_bump_version` returns a non-empty list,
that list is duplicate-free and is a permutation of the version keys the
differencer reports changed between the two `config.yml` snapshots — the
order is the unspecified iteration order of the hash-based key-set union,
not necessarily the first-seen order of the new snapshot. -/
theorem C2_amended_perm_of_changed (w : World) (σ : KeyOrder) (o n : String)
    (l ws : List String) (hσ : SetOrder σ)
    (h : detect_bump_version w σ o n = .ok (l, ws)) (hne : l ≠ []) :
    ∃ (files : List String) (cfgPath : String) (mo mn : YMap),
      git_diff_filenames w o n true = .ok files ∧
      files.filter (fun it => basename it == "config.yml") = [cfgPath] ∧
      get_config_yml_versions w o cfgPath = .ok (mo.map (·.1)) ∧
      get_config_yml_versions w n cfgPath = .ok (mn.map (·.1)) ∧
      l.Nodup ∧ l.Perm (changedKeys mo mn) := by
  obtain ⟨files, cfgPath, cdPath, cdiffC, cdiffD, cfgV, cdV, h1, _, _, hcfg, _, h8, hks1, _,
    hl, hsem, _, _, _, _, _, _, _⟩ := detect_ok_inv h hne
  obtain ⟨mo, mn, hmo, hmn, hnd, hperm, _⟩ := config_diff_chars hσ h8 hks1 hl hne hsem
  exact ⟨files, cfgPath, mo, mn, h1, hcfg, hmo, hmn, hnd, hperm⟩

/-- C2 (witness): the amended theorem applied to the concrete two-version
bump with the reversed iteration order. -/
theorem C2_amended_perm_of_changed_witness :
    ∃ (files : List String) (cfgPath : String) (mo mn : YMap),
      git_diff_filenames Wtwo "o" "n" true = .ok files ∧
      files.filter (fun it => basename it == "config.yml") = [cfgPath] ∧
      get_config_yml_versions Wtwo "o" cfgPath = .ok (mo.map (·.1)) ∧
      get_config_yml_versions Wtwo "n" cfgPath = .ok (mn.map (·.1)) ∧
      (["0.2.0", "0.1.1"] : List String).Nodup ∧
      (["0.2.0", "0.1.1"] : List String).Perm (changedKeys mo mn) :=
  C2_amended_perm_of_changed Wtwo List.reverse "o" "n" ["0.2.0", "0.1.1"] []
    (fun l => List.reverse_perm l) rfl (by decide)

/-- C3: every error raised by `detect_bump_version` originates in a failing
collaborator call (git diff, git show, or YAML parse); a successful run
returns a pair, and when the returned list is non-empty it contains every
version key that the new `config.yml` snapshot adds over the old one — the
gates never return a proper non-empty subset of the added keys. -/
theorem C3_error_taxonomy_and_no_partial_result :
    (∀ (w : World) (σ : KeyOrder) (o n e : String),
        detect_bump_version w σ o n = .error e → CollabFail w e) ∧
    (∀ (w : World) (σ : KeyOrder) (o n : String) (l ws : List String), SetOrder σ →
        detect_bump_version w σ o n = .ok (l, ws) →
        l = [] ∨
        ∃ (files : List String) (cfgPath : String) (mo mn : YMap),
          git_diff_filenames w o n true = .ok files ∧
          files.filter (fun it => basename it == "config.yml") = [cfgPath] ∧
          get_config_yml_versions w o cfgPath = .ok (mo.map (·.1)) ∧
          get_config_yml_versions w n cfgPath = .ok (mn.map (·.1)) ∧
          ∀ k, k ∈ mn.map (·.1) → k ∉ mo.map (·.1) → k ∈ l) := by
  constructor
  · intro w σ o n e h
    exact detect_bump_version_error h
  · intro w σ o n l ws hσ h
    by_cases hne : l = []
    · exact Or.inl hne
    · refine Or.inr ?_
      obtain ⟨files, cfgPath, cdPath, cdiffC, cdiffD, cfgV, cdV, h1, _, _, hcfg, _, h8, hks1, _,
        hl, hsem, _, _, _, _, _, _, _⟩ := detect_ok_inv h hne
      obtain ⟨mo, mn, hmo, hmn, _, _, hcmpl⟩ := config_diff_chars hσ h8 hks1 hl hne hsem
      exact ⟨files, cfgPath, mo, mn, h1, hcfg, hmo, hmn, hcmpl⟩

/-- C3 (witness): the taxonomy applied to the concrete legitimate bump. -/
theorem C3_error_taxonomy_witness :
    (["0.1.1"] : List String) = [] ∨
    ∃ (files : List String) (cfgPath : String) (mo mn : YMap),
      git_diff_filenames Wbase "o" "n" true = .ok files ∧
      files.filter (fun it => basename it == "config.yml") = [cfgPath] ∧
      get_config_yml_versions Wbase "o" cfgPath = .ok (mo.map (·.1)) ∧
      get_config_yml_versions Wbase "n" cfgPath = .ok (mn.map (·.1)) ∧
      ∀ k, k ∈ mn.map (·.1) → k ∉ mo.map (·.1) → k ∈ (["0.1.1"] : List String) :=
  C3_error_taxonomy_and_no_partial_result.2 Wbase id "o" "n" ["0.1.1"] []
    (fun l => List.Perm.refl l) rfl

/-- C6 (counterexample): the changed files `recipes/foo/config.yml` and
`recipes/foobar/conandata.yml` come from unrelated directories that merely
share the string prefix `recipes/foo`; since that string prefix happens to
be an existing directory, the run is accepted rather than rejected. -/
theorem C6_counterexample_string_prefix_accepted :
    git_diff_filenames Wprefix "o" "n" true =
      .ok ["recipes/foo/config.yml", "recipes/foobar/conandata.yml"] ∧
    List.isPrefixOf ("recipes/foo/").data ("recipes/foo/config.yml").data = true ∧
    List.isPrefixOf ("recipes/foobar/").data ("recipes/foobar/conandata.yml").data = true ∧
    List.isPrefixOf ("recipes/foo/").data ("recipes/foobar/conandata.yml").data = false ∧
    List.isPrefixOf ("recipes/foobar/").data ("recipes/foo/config.yml").data = false ∧
    relpathStr Wprefix.cwd (commonprefixStr
      ((["recipes/foo/config.yml", "recipes/foobar/conandata.yml"]).map
        (abspathStr Wprefix.cwd))) = "recipes/foo" ∧
    Wprefix.isdir "recipes/foo" = true ∧
    detect_bump_version Wprefix id "o" "n" = .ok (["0.1.1"], []) :=
  ⟨rfl, by decide, by decide, by decide, by decide, by decide, rfl, rfl⟩

/-- C6 (amended): a non-empty result requires exactly two changed files, of
which exactly one has basename `config.yml` and exactly one `conandata.yml`,
and requires the relative form of the character-wise common prefix of their
absolute paths to be an existing directory; this rejects unrelated files
whose common string prefix is not an existing directory, but does not reject
every unrelated pair (see the counterexample). -/
theorem C6_amended_scope_gate (w : World) (σ : KeyOrder) (o n : String)
    (l ws : List String) (h : detect_bump_version w σ o n = .ok (l, ws)) (hne : l ≠ []) :
    ∃ (files : List String) (cfgPath cdPath : String),
      git_diff_filenames w o n true = .ok files ∧
      files.length = 2 ∧
      files.filter (fun it => basename it == "config.yml") = [cfgPath] ∧
      files.filter (fun it => basename it == "conandata.yml") = [cdPath] ∧
      w.isdir (relpathStr w.cwd (commonprefixStr (files.map (abspathStr w.cwd)))) = true := by
  obtain ⟨files, cfgPath, cdPath, _, _, _, _, h1, hlen, hdir, hcfg, hcd, _, _, _, _, _, _, _, _,
    _, _, _, _⟩ := detect_ok_inv h hne
  exact ⟨files, cfgPath, cdPath, h1, hlen, hcfg, hcd, hdir⟩

/-- C6 (witness): the amended scope gate at the concrete legitimate bump. -/
theorem C6_amended_scope_gate_witness :
    ∃ (files : List String) (cfgPath cdPath : String),
      git_diff_filenames Wbase "o" "n" true = .ok files ∧
      files.length = 2 ∧
      files.filter (fun it => basename it == "config.yml") = [cfgPath] ∧
      files.filter (fun it => basename it == "conandata.yml") = [cdPath] ∧
      Wbase.isdir (relpathStr Wbase.cwd (commonprefixStr (files.map (abspathStr Wbase.cwd)))) = true :=
  C6_amended_scope_gate Wbase id "o" "n" ["0.1.1"] [] rfl (by decide)

/-- C7 (counterexample): the differencer compares scalars with Python `==`,
under which `1 == True`; diffing `{a: 1}` against `{a: true}` therefore
emits no entry at all instead of a `Modified` entry. -/
theorem C7_counterexample_int_bool_coerced :
    recursive_yaml_diff id (.map [("a", Yaml.int 1)]) (.map [("a", Yaml.bool true)]) = [] ∧
    pyEq (Yaml.int 1) (Yaml.bool true) = true :=
  ⟨rfl, rfl⟩

/-- C7 (amended): deep equality is Python `==`, which identifies booleans
with their numeric values (`1 == True`), so such pairs emit no entry; for a
key whose two scalar values are Python-unequal (and not both mappings) the
differencer does emit a `Modified` entry, as for `1` versus `"1"`. -/
theorem C7_amended_python_equality :
    (∀ (σ : KeyOrder) (yaml_old yaml_new : YMap) (k : String) (vo vn : Yaml),
        SetOrder σ →
        lookupYM k yaml_old = some vo → lookupYM k yaml_new = some vn →
        pyEq vo vn = false → (isMapY vo && isMapY vn) = false →
        lookupYM k (recursive_yaml_diff σ (.map yaml_old) (.map yaml_new)) =
          some (.map [("modified", .map [("old", vo), ("new", vn)])])) ∧
    recursive_yaml_diff id (.map [("a", Yaml.int 1)]) (.map [("a", Yaml.str "1")]) =
      [("a", .map [("modified", .map [("old", Yaml.int 1), ("new", Yaml.str "1")])])] ∧
    pyEq (Yaml.int 1) (Yaml.bool true) = true ∧
    pyEq (Yaml.int 1) (Yaml.str "1") = false := by
  refine ⟨?_, rfl, rfl, rfl⟩
  intro σ yaml_old yaml_new k vo vn hσ hyo hyn hpy hm
  have hmemo : k ∈ yaml_old.map (·.1) := lookupYM_isSome.mp (by simp [hyo])
  have hmemu : k ∈ σ (unionKeys yaml_old yaml_new) :=
    (List.Perm.mem_iff (hσ _)).mpr (mem_unionKeys.mpr (Or.inl hmemo))
  have hdo : 1 ≤ ydepthM yaml_old := le_trans (ydepth_pos vo) (ydepthM_lookup hyo)
  rw [show recursive_yaml_diff σ (.map yaml_old) (.map yaml_new) =
      diffMapF σ (ydepthM yaml_old + ydepthM yaml_new) yaml_old yaml_new from rfl]
  rcases hF : ydepthM yaml_old + ydepthM yaml_new with _ | f
  · omega
  rw [show diffMapF σ (f + 1) yaml_old yaml_new =
      diffKeysStep (diffMapF σ f) (σ (unionKeys yaml_old yaml_new)) yaml_old yaml_new from rfl]
  exact diffKeysStep_lookup_modified _ hyo hyn hpy hm _ hmemu

/-- C7 (witness): the modified-emission direction applied to `1` versus
`"1"` under the identity iteration order. -/
theorem C7_amended_python_equality_witness :
    lookupYM "a" (recursive_yaml_diff id (.map [("a", Yaml.int 1)]) (.map [("a", Yaml.str "1")])) =
      some (.map [("modified", .map [("old", Yaml.int 1), ("new", Yaml.str "1")])]) :=
  C7_amended_python_equality.1 id [("a", Yaml.int 1)] [("a", Yaml.str "1")] "a"
    (Yaml.int 1) (Yaml.str "1") (fun l => List.Perm.refl l) rfl rfl (by decide) (by decide)

/-- C8: whenever `detect_bump_version` returns a non-empty list, every entry
of the `sources` diff of `conandata.yml` is a pure `added` carrying exactly
the fields `url` and `sha256` with a string-valued `sha256`; and concretely,
changing the checksum of an existing version alongside a bump (`Wchecksum`)
zeroes the result. -/
theorem C8_sources_addition_purity :
    (∀ (w : World) (σ : KeyOrder) (o n : String) (l ws : List String),
        detect_bump_version w σ o n = .ok (l, ws) → l ≠ [] →
        ∃ (files : List String) (cdPath : String) (cdiffD : YMap),
          git_diff_filenames w o n true = .ok files ∧
          files.filter (fun it => basename it == "conandata.yml") = [cdPath] ∧
          compare_yaml_files w σ o n cdPath = .ok cdiffD ∧
          keySetEqSingle (cdiffD.map (·.1)) "sources" = true ∧
          ∀ vi ∈ valuesOfY (getYM cdiffD "sources"), conformSource vi = true) ∧
    detect_bump_version Wchecksum id "o" "n" = .ok ([], []) := by
  refine ⟨?_, rfl⟩
  intro w σ o n l ws h hne
  obtain ⟨files, cfgPath, cdPath, cdiffC, cdiffD, cfgV, cdV, h1, _, _, _, hcd, _, _, _, _, _, _,
    _, _, hcmp2, hks2, hchk, _⟩ := detect_ok_inv h hne
  exact ⟨files, cdPath, cdiffD, h1, hcd, hcmp2, hks2, check_sources_entries_ok hchk⟩

/-- C8 (witness): the purity characterization at the concrete legitimate
bump. -/
theorem C8_sources_addition_purity_witness :
    ∃ (files : List String) (cdPath : String) (cdiffD : YMap),
      git_diff_filenames Wbase "o" "n" true = .ok files ∧
      files.filter (fun it => basename it == "conandata.yml") = [cdPath] ∧
      compare_yaml_files Wbase id "o" "n" cdPath = .ok cdiffD ∧
      keySetEqSingle (cdiffD.map (·.1)) "sources" = true ∧
      ∀ vi ∈ valuesOfY (getYM cdiffD "sources"), conformSource vi = true :=
  C8_sources_addition_purity.1 Wbase id "o" "n" ["0.1.1"] [] rfl (by decide)

/-- C9: whenever `detect_bump_version` returns a non-empty list, the sorted
version-key lists of the new `config.yml` and the new `conandata.yml` agree,
hence the two files carry the same version-key set at the new revision; and
concretely, a version present in `config.yml` but missing from
`conandata.yml` (`Wmismatch`) zeroes the result. -/
theorem C9_cross_file_key_equality :
    (∀ (w : World) (σ : KeyOrder) (o n : String) (l ws : List String),
        detect_bump_version w σ o n = .ok (l, ws) → l ≠ [] →
        ∃ (files : List String) (cfgPath cdPath : String) (cfgV cdV : List String),
          git_diff_filenames w o n true = .ok files ∧
          files.filter (fun it => basename it == "config.yml") = [cfgPath] ∧
          files.filter (fun it => basename it == "conandata.yml") = [cdPath] ∧
          get_config_yml_versions w n cfgPath = .ok cfgV ∧
          get_conandata_yml_versions w n cdPath = .ok cdV ∧
          sortStrings cfgV = sortStrings cdV ∧
          ∀ v, v ∈ cfgV ↔ v ∈ cdV) ∧
    detect_bump_version Wmismatch id "o" "n" = .ok ([], []) := by
  refine ⟨?_, rfl⟩
  intro w σ o n l ws h hne
  obtain ⟨files, cfgPath, cdPath, cdiffC, cdiffD, cfgV, cdV, h1, _, _, hcfg, hcd, _, _, _, _, _,
    h12, h13, hsort, _, _, _, _⟩ := detect_ok_inv h hne
  exact ⟨files, cfgPath, cdPath, cfgV, cdV, h1, hcfg, hcd, h12, h13, hsort,
    fun v => (perm_of_sortStrings_eq hsort).mem_iff⟩

/-- C9 (witness): the cross-file key equality at the concrete legitimate
bump. -/
theorem C9_cross_file_key_equality_witness :
    ∃ (files : List String) (cfgPath cdPath : String) (cfgV cdV : List String),
      git_diff_filenames Wbase "o" "n" true = .ok files ∧
      files.filter (fun it => basename it == "config.yml") = [cfgPath] ∧
      files.filter (fun it => basename it == "conandata.yml") = [cdPath] ∧
      get_config_yml_versions Wbase "n" cfgPath = .ok cfgV ∧
      get_conandata_yml_versions Wbase "n" cdPath = .ok cdV ∧
      sortStrings cfgV = sortStrings cdV ∧
      ∀ v, v ∈ cfgV ↔ v ∈ cdV :=
  C9_cross_file_key_equality.1 Wbase id "o" "n" ["0.1.1"] [] rfl (by decide)

/-- C10: diffing a well-formed tree against itself yields no changes; a key
whose old and new values are Python-equal never appears in the diff; and two
snapshots whose raw texts differ but parse to the same well-formed tree
produce an empty diff in `compare_yaml_files`. -/
theorem C10_diff_of_equal_is_empty :
    (∀ t : YMap, WFY (.map t) = true → ∀ σ : KeyOrder,
        recursive_yaml_diff σ (.map t) (.map t) = []) ∧
    (∀ (σ : KeyOrder) (yaml_old yaml_new : YMap) (k : String) (vo vn : Yaml),
        lookupYM k yaml_old = some vo → lookupYM k yaml_new = some vn → pyEq vo vn = true →
        lookupYM k (recursive_yaml_diff σ (.map yaml_old) (.map yaml_new)) = none) ∧
    (∀ (w : World) (σ : KeyOrder) (o n p s1 s2 : String) (y : Yaml),
        w.gitShow o p = .ok s1 → w.gitShow n p = .ok s2 →
        w.parseYaml s1 = .ok y → w.parseYaml s2 = .ok y → WFY y = true →
        compare_yaml_files w σ o n p = .ok []) := by
  refine ⟨?_, ?_, ?_⟩
  · intro t hwf σ
    exact recursive_yaml_diff_self σ hwf
  · intro σ yaml_old yaml_new k vo vn hyo hyn hpy
    rw [show recursive_yaml_diff σ (.map yaml_old) (.map yaml_new) =
        diffMapF σ (ydepthM yaml_old + ydepthM yaml_new) yaml_old yaml_new from rfl]
    rcases ydepthM yaml_old + ydepthM yaml_new with _ | f
    · rfl
    · rw [show diffMapF σ (f + 1) yaml_old yaml_new =
          diffKeysStep (diffMapF σ f) (σ (unionKeys yaml_old yaml_new)) yaml_old yaml_new from rfl]
      exact diffKeysStep_lookup_none _ hyo hyn hpy _
  · intro w σ o n p s1 s2 y h1 h2 h3 h4 hwf
    unfold compare_yaml_files get_file_content_by_commit load_yaml_content
    simp only [h1, h2, h3, h4]
    rw [recursive_yaml_diff_self σ hwf]

/-- C10 (witness): the three parts applied to concrete well-formed trees and
to a world whose two raw texts differ but parse identically. -/
theorem C10_diff_of_equal_is_empty_witness :
    recursive_yaml_diff id
      (.map [("versions", Yaml.map [("1.0", Yaml.map [("folder", Yaml.str "all")])])])
      (.map [("versions", Yaml.map [("1.0", Yaml.map [("folder", Yaml.str "all")])])]) = [] ∧
    lookupYM "a" (recursive_yaml_diff id (.map [("a", Yaml.int 1)])
      (.map [("a", Yaml.bool true), ("b", Yaml.int 2)])) = none :=
  ⟨C10_diff_of_equal_is_empty.1 [("versions", Yaml.map [("1.0", Yaml.map [("folder", Yaml.str "all")])])]
      (by decide) id,
   C10_diff_of_equal_is_empty.2.1 id [("a", Yaml.int 1)] [("a", Yaml.bool true), ("b", Yaml.int 2)]
      "a" (Yaml.int 1) (Yaml.bool true) rfl rfl (by decide)⟩

/-- C4: in any run that reaches the version-syntax gate with pure additions
(the scope and shape gates pass) and at least one added version key failing
`^\d+\.\d+(\.\d+)?$`, `detect_bump_version` returns the empty list for the
whole run and emits a warning naming an offending version string. -/
theorem C4_nonsemver_aborts_run_with_warning (w : World) (σ : KeyOrder) (o n : String)
    (files : List String) (cfgPath cdPath : String) (cdiffC : YMap)
    (hfiles : git_diff_filenames w o n true = .ok files)
    (hlen : files.length = 2)
    (hdir : w.isdir (relpathStr w.cwd (commonprefixStr (files.map (abspathStr w.cwd)))) = true)
    (hcfg : files.filter (fun it => basename it == "config.yml") = [cfgPath])
    (hcd : files.filter (fun it => basename it == "conandata.yml") = [cdPath])
    (hcmp : compare_yaml_files w σ o n cfgPath = .ok cdiffC)
    (hks : keySetEqSingle (cdiffC.map (·.1)) "versions" = true)
    (hpure : (valuesOfY (getYM cdiffC "versions")).all pure_folder_add = true)
    (hbad : ∃ v ∈ keysOfY (getYM cdiffC "versions"), semver_match v = false) :
    ∃ v, semver_match v = false ∧ v ∈ keysOfY (getYM cdiffC "versions") ∧
      detect_bump_version w σ o n = .ok ([], [warnNonSemver v]) := by
  obtain ⟨v0, hv0mem, hv0bad⟩ := hbad
  have hfind : ((keysOfY (getYM cdiffC "versions")).find?
      (fun version => !(semver_match version))).isSome :=
    List.find?_isSome.mpr ⟨v0, hv0mem, by simp [hv0bad]⟩
  rcases hfe : (keysOfY (getYM cdiffC "versions")).find? (fun version => !(semver_match version))
      with _ | v
  · rw [hfe] at hfind
    cases hfind
  refine ⟨v, ?_, List.mem_of_find?_eq_some hfe, ?_⟩
  · have := List.find?_some hfe
    simpa using this
  · have hfiles2 : git_diff_filenames w o n false = .ok files := hfiles
    unfold detect_bump_version
    simp only [hfiles, hfiles2]
    rw [if_neg (by simp [hlen])]
    rw [if_neg (by simp [hdir])]
    simp only [hcfg, hcd]
    rw [if_neg (by simp)]
    rw [if_neg (by simp)]
    simp only [List.headD_cons, hcmp]
    rw [if_neg (by simp [hks])]
    rw [if_neg (by simp [hpure])]
    simp only [hfe]

/-- C4 (witness): the non-semver abort applied to the concrete run that adds
the key `0.1.1-rc`. -/
theorem C4_nonsemver_aborts_run_with_warning_witness :
    ∃ v, semver_match v = false ∧
      v ∈ keysOfY (getYM (recursive_yaml_diff id (cfgWith ["0.1.0"])
        (cfgWith ["0.1.0", "0.1.1-rc"])) "versions") ∧
      detect_bump_version Wbadver id "o" "n" = .ok ([], [warnNonSemver v]) :=
  C4_nonsemver_aborts_run_with_warning Wbadver id "o" "n"
    ["config.yml", "all/conandata.yml"] "config.yml" "all/conandata.yml"
    (recursive_yaml_diff id (cfgWith ["0.1.0"]) (cfgWith ["0.1.0", "0.1.1-rc"]))
    rfl rfl rfl (by decide) (by decide) rfl (by decide) (by decide)
    ⟨"0.1.1-rc", by decide, by decide⟩

/-- C5: the URL provenance gate accepts a conforming added entry exactly
when the hostname of every new URL is a member of the hostname set of the
URLs in the old sources file and, independently, the scheme of every new
URL is a member of their scheme set; in particular (`Wcross`) a new URL combining the host
seen only over `http` with the scheme seen only on the other host is
accepted and the bump is returned. -/
theorem C5_url_host_scheme_independent :
    (∀ (w : World) (o cd : String) (uv : Yaml) (sha : String) (oldUrls : List UrlParts),
      get_conandata_yml_urls w o cd = .ok oldUrls →
      (check_sources_entries w o cd
          [Yaml.map [("added", Yaml.map [("url", uv), ("sha256", Yaml.str sha)])]] = .ok true ↔
        ∀ u ∈ normalizeUrl uv,
          (urlparse u).hostname ∈ oldUrls.map (·.hostname) ∧
          (urlparse u).scheme ∈ oldUrls.map (·.scheme))) ∧
    detect_bump_version Wcross id "o" "n" = .ok (["0.1.1"], []) := by
  refine ⟨?_, rfl⟩
  intro w o cd uv sha oldUrls hurls
  unfold check_sources_entries
  rw [if_neg (by simp [keySetEqSingle, keysOfY, yIn, lookupYM, asMap, getY])]
  rw [if_neg (by simp [keysOfY, getY, asMap, lookupYM])]
  rw [if_neg (by simp [isStrY, getY, asMap, lookupYM])]
  simp only [hurls]
  have hget : getY (getY (Yaml.map [("added", Yaml.map [("url", uv), ("sha256", Yaml.str sha)])])
      "added") "url" = uv := by
    simp [getY, asMap, lookupYM]
  rw [hget]
  constructor
  · intro hok u hu
    by_cases ha1 : (normalizeUrl uv).all
        (fun url => (oldUrls.map (·.hostname)).contains (urlparse url).hostname)
    · by_cases ha2 : (normalizeUrl uv).all
          (fun url => (oldUrls.map (·.scheme)).contains (urlparse url).scheme)
      · refine ⟨?_, ?_⟩
        · exact List.elem_iff.mp (List.all_eq_true.mp ha1 u hu)
        · exact List.elem_iff.mp (List.all_eq_true.mp ha2 u hu)
      · exfalso
        have ha2f : (normalizeUrl uv).all
            (fun url => (oldUrls.map (·.scheme)).contains (urlparse url).scheme) = false := by
          simpa using ha2
        rw [if_neg (by simp only [ha1]; decide), if_pos (by simp only [ha2f]; decide)] at hok
        injection hok with hb
        exact Bool.noConfusion hb
    · exfalso
      have ha1f : (normalizeUrl uv).all
          (fun url => (oldUrls.map (·.hostname)).contains (urlparse url).hostname) = false := by
        simpa using ha1
      rw [if_pos (by simp only [ha1f]; decide)] at hok
      injection hok with hb
      exact Bool.noConfusion hb
  · intro hall
    have ha1 : (normalizeUrl uv).all
        (fun url => (oldUrls.map (·.hostname)).contains (urlparse url).hostname) = true :=
      List.all_eq_true.mpr (fun u hu => List.elem_iff.mpr (hall u hu).1)
    have ha2 : (normalizeUrl uv).all
        (fun url => (oldUrls.map (·.scheme)).contains (urlparse url).scheme) = true :=
      List.all_eq_true.mpr (fun u hu => List.elem_iff.mpr (hall u hu).2)
    rw [if_neg (by simp only [ha1]; decide), if_neg (by simp only [ha2]; decide)]
    rfl

/-- C5 (witness): the gate characterization applied to the cross
conforming entry for version `0.1.1` in the cross host/scheme world. -/
theorem C5_url_host_scheme_independent_witness :
    check_sources_entries Wcross "o" "all/conandata.yml"
        [Yaml.map [("added", Yaml.map [("url", Yaml.str "https://a.com/a1"),
                                       ("sha256", Yaml.str "s1")])]] = .ok true ↔
      ∀ u ∈ normalizeUrl (Yaml.str "https://a.com/a1"),
        (urlparse u).hostname ∈
          ([urlparse "https://b.com/a9", urlparse "http://a.com/a0"].map (·.hostname)) ∧
        (urlparse u).scheme ∈
          ([urlparse "https://b.com/a9", urlparse "http://a.com/a0"].map (·.scheme)) :=
  C5_url_host_scheme_independent.1 Wcross "o" "all/conandata.yml" (Yaml.str "https://a.com/a1")
    "s1" [urlparse "https://b.com/a9", urlparse "http://a.com/a0"] rfl
